import Mathlib

/-!
# Verification of the car-expense dashboard's normalization core

This file gives a shallow embedding, in Lean 4, of the data-normalization and
derivation core of the dashboard (`src/main.ts`): the `normalizeData` routine
(field reconciliation, date canonicalization, numeric coercion, chronological
ordering, fuel-efficiency derivation) and the display ordering used by
`processData`.

Modelling conventions:
* JavaScript numbers are modelled as exact rationals (`ℚ`).  JS runtime values
  reachable from the parsed JSON snapshot are modelled by `JSVal`
  (string / number / boolean / null), with JS truthiness made explicit.
* `parseFloat` is modelled by `parseFloatChars` (sign, digits, optional
  fraction, optional exponent, longest-valid-prefix semantics); the special
  value `Infinity` and `NaN` outputs are modelled by `none`.
* `String(number)` is modelled by `ratChars` which prints exact decimal
  expansions (every JS float has one); rationals whose denominator is not of
  the form 2^a*5^b cannot arise from JS floats and get a fallback rendering.
* `new Date(string)` is modelled by `parseDateChars`, covering the date shapes
  this data source produces: `"DD Mon YYYY"` (the dashboard's own en-IN output
  format), year-less `"D Mon"` (which the JS host parses with placeholder year
  2001 — the defect the year-correction targets), and ISO `"YYYY-MM-DD"`.
  Other shapes are modelled as parse failures.  `new Date(number)` (a date
  field holding a number) is modelled coarsely as the epoch day for small
  magnitudes; no claim exercises numeric date fields.
* `Date.prototype.getTime` is modelled by `timeValue`, an order- and
  sign-faithful (zero at the 1970 epoch) linearization of (year, month, day).
* `Array.prototype.sort` is modelled by a stable top-down merge sort
  (`sortJS`); per the ECMAScript SortCompare step, a comparator result of
  `NaN` is treated as `+0` (a tie).
* A thrown `TypeError` (reachable: `typeValue.toLowerCase()` when the resolved
  comment/type/Category/category value is a truthy non-string) is modelled by
  `Except.error`.
* The implicit environmental input `new Date().getFullYear()` is passed as an
  explicit `currentYear` parameter.
-/

namespace Car

/-! ## Decimal digits on character lists -/

/-- The character for a single decimal digit (`0 ≤ d ≤ 9`). -/
def digitChar : ℕ → Char
  | 0 => '0' | 1 => '1' | 2 => '2' | 3 => '3' | 4 => '4'
  | 5 => '5' | 6 => '6' | 7 => '7' | 8 => '8' | _ => '9'

/-- Numeric value of a digit character. -/
def chVal (c : Char) : ℕ := c.toNat - 48

/-- Value of a list of decimal digit characters, most significant first. -/
def digitsVal (l : List Char) : ℕ := l.foldl (fun acc c => acc * 10 + chVal c) 0

/-- Fuel-driven decimal printer for naturals (structural, so the kernel can
evaluate it). -/
def natToCharsAux : ℕ → ℕ → List Char
  | 0, _ => []
  | fuel + 1, n =>
    if n < 10 then [digitChar n] else natToCharsAux fuel (n / 10) ++ [digitChar (n % 10)]

/-- Decimal representation of a natural number, as JS `String(n)` renders it. -/
def natToChars (n : ℕ) : List Char := natToCharsAux (n + 1) n

theorem digitChar_isDigit (d : ℕ) : (digitChar d).isDigit = true := by
  unfold digitChar
  split <;> decide

theorem chVal_digitChar (d : ℕ) (h : d < 10) : chVal (digitChar d) = d := by
  interval_cases d <;> decide

theorem digitsVal_foldl_acc (l : List Char) (acc : ℕ) :
    List.foldl (fun acc c => acc * 10 + chVal c) acc l = acc * 10 ^ l.length + digitsVal l := by
  induction l generalizing acc with
  | nil => simp [digitsVal]
  | cons c cs ih =>
    have hd : digitsVal (c :: cs) = chVal c * 10 ^ cs.length + digitsVal cs := by
      have := ih (chVal c)
      simpa [digitsVal] using this
    simp only [List.foldl_cons, List.length_cons, hd]
    rw [ih (acc * 10 + chVal c)]
    ring

theorem digitsVal_append (a b : List Char) :
    digitsVal (a ++ b) = digitsVal a * 10 ^ b.length + digitsVal b := by
  unfold digitsVal
  rw [List.foldl_append]
  exact digitsVal_foldl_acc b _

theorem natToCharsAux_spec (fuel n : ℕ) (hf : n < fuel) :
    digitsVal (natToCharsAux fuel n) = n ∧ natToCharsAux fuel n ≠ [] ∧
      (∀ c ∈ natToCharsAux fuel n, c.isDigit = true) := by
  induction fuel generalizing n with
  | zero => omega
  | succ fuel ih =>
    unfold natToCharsAux
    by_cases h : n < 10
    · simp only [if_pos h]
      refine ⟨?_, by simp, ?_⟩
      · simp [digitsVal, chVal_digitChar n h]
      · intro c hc
        simp only [List.mem_singleton] at hc
        subst hc; exact digitChar_isDigit n
    · simp only [if_neg h]
      have hrec : n / 10 < fuel := by omega
      obtain ⟨hval, hne, hdig⟩ := ih (n / 10) hrec
      refine ⟨?_, by simp, ?_⟩
      · rw [digitsVal_append, hval]
        have : digitsVal [digitChar (n % 10)] = n % 10 := by
          simp [digitsVal, chVal_digitChar (n % 10) (Nat.mod_lt n (by omega))]
        rw [this]
        simp only [List.length_singleton, pow_one]
        omega
      · intro c hc
        rcases List.mem_append.mp hc with h1 | h1
        · exact hdig c h1
        · simp only [List.mem_singleton] at h1
          subst h1; exact digitChar_isDigit _

theorem digitsVal_natToChars (n : ℕ) : digitsVal (natToChars n) = n :=
  (natToCharsAux_spec (n + 1) n (by omega)).1

theorem natToChars_ne_nil (n : ℕ) : natToChars n ≠ [] :=
  (natToCharsAux_spec (n + 1) n (by omega)).2.1

theorem natToChars_isDigit (n : ℕ) : ∀ c ∈ natToChars n, c.isDigit = true :=
  (natToCharsAux_spec (n + 1) n (by omega)).2.2

theorem natToCharsAux_length (fuel n k : ℕ) (hf : n < fuel) (hk : 1 ≤ k) (h : n < 10 ^ k) :
    (natToCharsAux fuel n).length ≤ k := by
  induction fuel generalizing n k with
  | zero => omega
  | succ fuel ih =>
    unfold natToCharsAux
    by_cases hn : n < 10
    · simp [if_pos hn]; omega
    · simp only [if_neg hn, List.length_append, List.length_singleton]
      have hk2 : 2 ≤ k := by
        by_contra hc
        have : k = 1 := by omega
        subst this
        simp at h; omega
      have : n / 10 < 10 ^ (k - 1) := by
        have h10 : 10 ^ k = 10 ^ (k - 1) * 10 := by
          conv_lhs => rw [show k = (k - 1) + 1 by omega]
          ring
        rw [h10] at h
        omega
      have := ih (n / 10) (k - 1) (by omega) (by omega) this
      omega

theorem natToChars_length (n k : ℕ) (hk : 1 ≤ k) (h : n < 10 ^ k) :
    (natToChars n).length ≤ k :=
  natToCharsAux_length (n + 1) n k (by omega) hk h

theorem digitsVal_replicate_zero (j : ℕ) (l : List Char) :
    digitsVal (List.replicate j '0' ++ l) = digitsVal l := by
  induction j with
  | zero => simp
  | succ j ih =>
    rw [List.replicate_succ]
    simpa [digitsVal, chVal] using ih

/-! ## Splitting a character list at a separator (model of `String.split`-style
grammar used by the date parser) -/

/-- Split a character list at every occurrence of `c` (the separator is
dropped; like JS `s.split(c)`, the result is always non-empty). -/
def splitOnChar (c : Char) : List Char → List (List Char)
  | [] => [[]]
  | x :: xs =>
    if x = c then [] :: splitOnChar c xs
    else
      match splitOnChar c xs with
      | [] => [[x]]
      | g :: gs => (x :: g) :: gs

theorem splitOnChar_ne_nil (c : Char) (l : List Char) : splitOnChar c l ≠ [] := by
  induction l with
  | nil => simp [splitOnChar]
  | cons x xs ih =>
    unfold splitOnChar
    by_cases h : x = c
    · simp [h]
    · simp only [if_neg h]
      cases hs : splitOnChar c xs <;> simp

theorem splitOnChar_of_not_mem (c : Char) (l : List Char) (h : c ∉ l) :
    splitOnChar c l = [l] := by
  induction l with
  | nil => rfl
  | cons x xs ih =>
    have hx : x ≠ c := fun hc => h (by simp [hc])
    have hxs : c ∉ xs := fun hc => h (by simp [hc])
    unfold splitOnChar
    rw [if_neg hx, ih hxs]

theorem splitOnChar_append (c : Char) (a b : List Char) (ha : c ∉ a) :
    splitOnChar c (a ++ c :: b) = a :: splitOnChar c b := by
  induction a with
  | nil => simp [splitOnChar]
  | cons x xs ih =>
    have hx : x ≠ c := fun hc => ha (by simp [hc])
    have hxs : c ∉ xs := fun hc => ha (by simp [hc])
    simp only [List.cons_append, splitOnChar, if_neg hx]
    rw [show (xs.append (c :: b)) = xs ++ c :: b from rfl, ih hxs]

/-! ## takeWhile / dropWhile helpers -/

theorem takeWhile_all_append (p : Char → Bool) (xs : List Char) (y : Char) (ys : List Char)
    (hxs : ∀ c ∈ xs, p c = true) (hy : p y = false) :
    (xs ++ y :: ys).takeWhile p = xs ∧ (xs ++ y :: ys).dropWhile p = y :: ys := by
  induction xs with
  | nil => simp [List.takeWhile, List.dropWhile, hy]
  | cons x xs ih =>
    have hx : p x = true := hxs x (by simp)
    have hxs' : ∀ c ∈ xs, p c = true := fun c hc => hxs c (by simp [hc])
    obtain ⟨h1, h2⟩ := ih hxs'
    simp [List.takeWhile, List.dropWhile, hx, h1, h2]

theorem takeWhile_all (p : Char → Bool) (xs : List Char) (hxs : ∀ c ∈ xs, p c = true) :
    xs.takeWhile p = xs ∧ xs.dropWhile p = [] := by
  induction xs with
  | nil => simp
  | cons x xs ih =>
    have hx : p x = true := hxs x (by simp)
    obtain ⟨h1, h2⟩ := ih (fun c hc => hxs c (by simp [hc]))
    simp [List.takeWhile, List.dropWhile, hx, h1, h2]

/-! ## JS runtime values

`JSVal` models the JSON-derived values a raw spreadsheet row can hold; a raw
row (`RawRecord`) is a key-value object, modelled as an association list with
distinct keys.  A key that is absent behaves like JS `undefined`, which for
the purposes of this code (truthiness) behaves like `null`. -/

inductive JSVal where
  | vStr (s : String)
  | vNum (q : ℚ)
  | vBool (b : Bool)
  | vNull
  deriving DecidableEq, Repr

/-- JS truthiness: `""`, `0`, `false`, `null`/`undefined` are falsy. -/
def JSVal.truthy : JSVal → Bool
  | .vStr s => !s.isEmpty
  | .vNum q => decide (q ≠ 0)
  | .vBool b => b
  | .vNull => false

/-- One raw spreadsheet row: string keys to JS values. -/
def RawRecord := List (String × JSVal)

instance : DecidableEq RawRecord := by unfold RawRecord; infer_instance

/-- `raw.k`: property access, `undefined` (modelled `vNull`) when absent. -/
def getJS (raw : RawRecord) (k : String) : JSVal := (List.lookup k raw).getD JSVal.vNull

/-- `raw.k1 || raw.k2 || ... || dflt`: first truthy candidate, else the
final literal default. -/
def firstTruthy (raw : RawRecord) : List String → JSVal → JSVal
  | [], dflt => dflt
  | k :: ks, dflt =>
    let v := getJS raw k
    if v.truthy then v else firstTruthy raw ks dflt

/-- JS `a || b` on values. -/
def jsOr (a b : JSVal) : JSVal := if a.truthy then a else b

/-! ## `parseFloat` -/

/-- Whitespace skipped by `parseFloat`. -/
def isWS (c : Char) : Bool := c = ' ' || c = '\t' || c = '\n' || c = '\r'

/-- `q * 10^e` for a signed exponent, kernel-computable. -/
def mulPow10 (q : ℚ) (e : ℤ) : ℚ :=
  if 0 ≤ e then q * 10 ^ e.toNat else q / 10 ^ (-e).toNat

/-- Exponent digits after an optional sign; an empty digit run means the
exponent marker is ignored (JS `parseFloat("1e")` is `1`). -/
def parseExpTail (r : List Char) : ℤ :=
  let sr : ℤ × List Char :=
    match r with
    | '-' :: t => (-1, t)
    | '+' :: t => (1, t)
    | _ => (1, r)
  let D := sr.2.takeWhile Char.isDigit
  if D.isEmpty then 0 else sr.1 * digitsVal D

/-- Optional exponent part of a float literal. -/
def parseExp : List Char → ℤ
  | 'e' :: r => parseExpTail r
  | 'E' :: r => parseExpTail r
  | _ => 0

/-- Leading sign of a float literal: `true` means negative. -/
def splitSign (l : List Char) : Bool × List Char :=
  match l with
  | [] => (false, [])
  | c :: r => if c = '-' then (true, r) else if c = '+' then (false, r) else (false, c :: r)

/-- Fractional digits after a leading `'.'` (with the unconsumed rest). -/
def splitFrac (r1 : List Char) : List Char × List Char :=
  match r1 with
  | [] => ([], [])
  | c :: r =>
    if c = '.' then (r.takeWhile Char.isDigit, r.dropWhile Char.isDigit) else ([], c :: r)

/-- Model of JS `parseFloat`: skip whitespace, optional sign, longest numeric
prefix `digits [. digits] [e[±]digits]`; `none` models `NaN`. -/
def parseFloatChars (l0 : List Char) : Option ℚ :=
  let l1 := l0.dropWhile isWS
  let sgn := splitSign l1
  let intPart := sgn.2.takeWhile Char.isDigit
  let r1 := sgn.2.dropWhile Char.isDigit
  let fr := splitFrac r1
  if intPart.isEmpty && fr.1.isEmpty then none
  else
    let mant : ℚ := (digitsVal intPart : ℚ) + (digitsVal fr.1 : ℚ) / 10 ^ fr.1.length
    some ((if sgn.1 then -1 else 1) * mulPow10 mant (parseExp fr.2))

/-- `parseFloat` applied to a string. -/
def parseFloatJS (s : String) : Option ℚ := parseFloatChars s.data

/-- `parseFloat(x) || undefined`: `NaN` and `0` both collapse to absent. -/
def numOrUndef : Option ℚ → Option ℚ
  | none => none
  | some q => if q = 0 then none else some q

/-! ## `String(number)`: exact decimal printing -/

/-- Multiplicity of `p` in `n` (count of factors), fuel-driven. -/
def multAux (p : ℕ) : ℕ → ℕ → ℕ
  | 0, _ => 0
  | fuel + 1, n => if 2 ≤ p ∧ n ≠ 0 ∧ n % p = 0 then multAux p fuel (n / p) + 1 else 0

/-- Largest `k` with `p^k ∣ n` (for `2 ≤ p`, `n ≠ 0`). -/
def multiplic (p n : ℕ) : ℕ := multAux p n n

/-- Fractional digits of `m`, zero-padded on the left to width `k`. -/
def fracChars (k m : ℕ) : List Char :=
  List.replicate (k - (natToChars m).length) '0' ++ natToChars m

/-- The unsigned part of the decimal rendering of a rational. -/
def ratCoreChars (q : ℚ) : List Char :=
  let n := q.num.natAbs
  let den := q.den
  let a := multiplic 2 den
  let b := multiplic 5 den
  if den = 2 ^ a * 5 ^ b then
    let k := max a b
    let m := n * (10 ^ k / den)
    if k = 0 then natToChars m
    else natToChars (m / 10 ^ k) ++ '.' :: fracChars k (m % 10 ^ k)
  else natToChars (n / den)

/-- Decimal rendering of a rational, matching JS `String(number)` on every
value a JS float can take (denominator `2^a * 5^b`); other denominators
cannot arise from JS numbers and get a truncated fallback. -/
def ratChars (q : ℚ) : List Char :=
  if q.num < 0 then '-' :: ratCoreChars q else ratCoreChars q

/-- JS `String(v)` conversion. -/
def jsString : JSVal → String
  | .vStr s => s
  | .vNum q => String.mk (ratChars q)
  | .vBool b => if b then "true" else "false"
  | .vNull => "null"

/-! ## String cleanup used by `normalizeData` -/

/-- `.replace(/,/g, '')`: drop every comma. -/
def stripCommas (s : String) : String := String.mk (s.data.filter (fun c => !(c = ',')))

/-- `.replace(/[₹]/g, '')`: drop every rupee sign. -/
def stripRupee (s : String) : String := String.mk (s.data.filter (fun c => !(c = '₹')))

/-- `needle` is an initial segment of `hay` (both char lists). -/
def startsWithChars : List Char → List Char → Bool
  | [], _ => true
  | _ :: _, [] => false
  | a :: as, b :: bs => a = b && startsWithChars as bs

/-- JS `hay.includes(needle)` on char lists. -/
def hasSubChars (needle : List Char) : List Char → Bool
  | [] => needle.isEmpty
  | c :: rest => startsWithChars needle (c :: rest) || hasSubChars needle rest

/-- JS `hay.includes(needle)`. -/
def hasSub (hay needle : String) : Bool := hasSubChars needle.data hay.data

/-- JS `s.toLowerCase()` (per-character lowering, kernel-computable). -/
def toLowerJS (s : String) : String := String.mk (s.data.map Char.toLower)

/-! ## Calendar dates -/

/-- A calendar date as the JS host exposes it (`getFullYear` / month / day);
month is 1-based here. -/
structure SimpleDate where
  year : ℕ
  month : ℕ
  day : ℕ
  deriving DecidableEq, Repr

/-- In-range day/month (the parser only produces such dates). -/
def WFDate (d : SimpleDate) : Prop :=
  1 ≤ d.day ∧ d.day ≤ 31 ∧ 1 ≤ d.month ∧ d.month ≤ 12

/-- English three-letter month abbreviation, as `toLocaleDateString('en-IN',
{month:'short'})` renders it. -/
def abbrevChars : ℕ → List Char
  | 1 => ['J', 'a', 'n'] | 2 => ['F', 'e', 'b'] | 3 => ['M', 'a', 'r']
  | 4 => ['A', 'p', 'r'] | 5 => ['M', 'a', 'y'] | 6 => ['J', 'u', 'n']
  | 7 => ['J', 'u', 'l'] | 8 => ['A', 'u', 'g'] | 9 => ['S', 'e', 'p']
  | 10 => ['O', 'c', 't'] | 11 => ['N', 'o', 'v'] | 12 => ['D', 'e', 'c']
  | _ => ['?']

/-- The twelve month abbreviations with their month numbers. -/
def monthAbbrevs : List (List Char × ℕ) :=
  [(['J', 'a', 'n'], 1), (['F', 'e', 'b'], 2), (['M', 'a', 'r'], 3), (['A', 'p', 'r'], 4),
   (['M', 'a', 'y'], 5), (['J', 'u', 'n'], 6), (['J', 'u', 'l'], 7), (['A', 'u', 'g'], 8),
   (['S', 'e', 'p'], 9), (['O', 'c', 't'], 10), (['N', 'o', 'v'], 11), (['D', 'e', 'c'], 12)]

/-- Recognize a month abbreviation. -/
def parseMonthChars (l : List Char) : Option ℕ :=
  (monthAbbrevs.find? (fun p => p.1 == l)).map Prod.snd

/-- Two-digit day, as `{day:'2-digit'}` renders it. -/
def pad2Chars (d : ℕ) : List Char := if d < 10 then '0' :: natToChars d else natToChars d

/-- `toLocaleDateString('en-IN', {day:'2-digit', month:'short',
year:'numeric'})`: e.g. `"15 Jan 2024"`. -/
def formatChars (dt : SimpleDate) : List Char :=
  pad2Chars dt.day ++ ' ' :: (abbrevChars dt.month ++ ' ' :: natToChars dt.year)

/-- The canonical display string for a date. -/
def formatDateEnIN (dt : SimpleDate) : String := String.mk (formatChars dt)

/-- A run of decimal digits? -/
def allDigits (l : List Char) : Bool := l.all Char.isDigit

/-- Model of the JS host's `new Date(string)` parse on the date shapes this
data source produces: `"D Mon"` / `"DD Mon"` (year-less, host fills in the
placeholder year 2001), `"D Mon YYYY"` / `"DD Mon YYYY"`, and ISO
`"YYYY-MM-DD"`.  Anything else is a parse failure (`Invalid Date`). -/
def parseDateChars (l : List Char) : Option SimpleDate :=
  match splitOnChar ' ' l with
  | [dS, mS] =>
    match parseMonthChars mS with
    | some m =>
      if allDigits dS ∧ dS ≠ [] ∧ dS.length ≤ 2 ∧ 1 ≤ digitsVal dS ∧ digitsVal dS ≤ 31 then
        some ⟨2001, m, digitsVal dS⟩
      else none
    | none => none
  | [dS, mS, yS] =>
    match parseMonthChars mS with
    | some m =>
      if (allDigits dS ∧ dS ≠ [] ∧ dS.length ≤ 2 ∧ 1 ≤ digitsVal dS ∧ digitsVal dS ≤ 31)
          ∧ (allDigits yS ∧ yS ≠ []) then
        some ⟨digitsVal yS, m, digitsVal dS⟩
      else none
    | none => none
  | _ =>
    match splitOnChar '-' l with
    | [yS, mS, dS] =>
      if (allDigits yS ∧ yS ≠ []) ∧ (allDigits mS ∧ mS ≠ [] ∧ 1 ≤ digitsVal mS ∧ digitsVal mS ≤ 12)
          ∧ (allDigits dS ∧ dS ≠ [] ∧ 1 ≤ digitsVal dS ∧ digitsVal dS ≤ 31) then
        some ⟨digitsVal yS, digitsVal mS, digitsVal dS⟩
      else none
    | _ => none

/-- `new Date(s)` for a string. -/
def parseDateJS (s : String) : Option SimpleDate := parseDateChars s.data

/-- Model of `getTime()`: an order- and sign-faithful linearization of
(year, month, day), zero at 1970-01-01.  Only comparisons and the sign/zero
of this value are used by the code under verification. -/
def timeValue (d : SimpleDate) : ℤ :=
  ((d.year : ℤ) - 1970) * 416 + (d.month : ℤ) * 32 + (d.day : ℤ) - 33

/-- `if (parsedDate.getFullYear() < 2010) parsedDate.setFullYear(currentYear)`. -/
def fixYear (currentYear : ℕ) (d : SimpleDate) : SimpleDate :=
  if d.year < 2010 then { d with year := currentYear } else d

/-- `new Date(v)` on an arbitrary JS value.  Strings parse as above; small
numbers land on the epoch day and out-of-range numbers are invalid (coarse
model, see the header); `true`/`false`/`null` coerce to tiny timestamps. -/
def jsNewDate : JSVal → Option SimpleDate
  | .vStr s => parseDateJS s
  | .vNum q => if 0 ≤ q ∧ q < 86400000 then some ⟨1970, 1, 1⟩ else none
  | .vBool _ => some ⟨1970, 1, 1⟩
  | .vNull => some ⟨1970, 1, 1⟩

/-- Lines 352–359 of `normalizeData`: parse the raw date-like value; on
success correct a pre-2010 year to the current year and re-render in the
fixed en-IN display format; on failure pass the original text through. -/
def normalizeDateStr (currentYear : ℕ) (v : JSVal) : String :=
  match jsNewDate v with
  | none => jsString v
  | some d => formatDateEnIN (fixYear currentYear d)

/-! ## Stable sort (model of `Array.prototype.sort`)

`sortJS` is a stable top-down merge sort driven by a boolean "may stay
before" relation `le a b`, which models a JS comparator `cmp` via
`le a b = ¬(cmp(a,b) > 0)`; per ECMAScript's SortCompare, a comparator
result of `NaN` counts as `+0`, i.e. `le` is `true` both ways. -/

/-- Alternating split of a list into two halves. -/
def splitList : List α → List α × List α
  | [] => ([], [])
  | a :: rest =>
    let p := splitList rest
    (a :: p.2, p.1)

/-- Stable merge, fuel-driven so the kernel can evaluate it. -/
def mergeAux (le : α → α → Bool) : ℕ → List α → List α → List α
  | 0, xs, ys => xs ++ ys
  | _ + 1, [], ys => ys
  | _ + 1, x :: xs, [] => x :: xs
  | fuel + 1, x :: xs, y :: ys =>
    if le x y then x :: mergeAux le fuel xs (y :: ys)
    else y :: mergeAux le fuel (x :: xs) ys

/-- Stable merge of two lists. -/
def mergeJS (le : α → α → Bool) (xs ys : List α) : List α :=
  mergeAux le (xs.length + ys.length) xs ys

/-- Fuel-driven merge sort. -/
def sortJSAux (le : α → α → Bool) : ℕ → List α → List α
  | 0, l => l
  | _ + 1, [] => []
  | _ + 1, [a] => [a]
  | fuel + 1, a :: b :: rest =>
    let p := splitList (a :: b :: rest)
    mergeJS le (sortJSAux le fuel p.1) (sortJSAux le fuel p.2)

/-- Model of `[...arr].sort(cmp)`. -/
def sortJS (le : α → α → Bool) (l : List α) : List α := sortJSAux le l.length l

/-! ## The canonical expense record -/

/-- The `Expense` interface of `src/main.ts`; optional numeric fields are
`Option ℚ` (`none` is JS `undefined`). -/
structure Expense where
  Date : String
  Category : String
  Description : String
  Amount : ℚ
  Odometer : Option ℚ := none
  Volume : Option ℚ := none
  Rate : Option ℚ := none
  Efficiency : Option ℚ := none
  deriving DecidableEq, Repr

/-- Truthiness of an optional number (`undefined` and `0` are falsy). -/
def numTruthy : Option ℚ → Bool
  | none => false
  | some q => decide (q ≠ 0)

/-! ## `normalizeData` step 1: per-row field reconciliation (lines 344–377) -/

/-- The resolved `typeValue` (`raw.comment || raw.type || raw.Category ||
raw.category || 'Other'`). -/
def resolveType (raw : RawRecord) : JSVal :=
  firstTruthy raw ["comment", "type", "Category", "category"] (JSVal.vStr "Other")

/-- The resolved raw date value (`raw.date || raw.Date || ''`). -/
def resolveDate (raw : RawRecord) : JSVal := firstTruthy raw ["date", "Date"] (JSVal.vStr "")

/-- The resolved raw amount value (`raw.Price || raw.Amount || '0'`). -/
def resolveAmount (raw : RawRecord) : JSVal := firstTruthy raw ["Price", "Amount"] (JSVal.vStr "0")

/-- The resolved raw odometer value. -/
def resolveOdometer (raw : RawRecord) : JSVal :=
  firstTruthy raw ["odometer reading", "Odometer"] (JSVal.vStr "")

/-- The resolved raw volume value. -/
def resolveVolume (raw : RawRecord) : JSVal :=
  firstTruthy raw ["volume in ltr", "Volume"] (JSVal.vStr "")

/-- The resolved raw rate value. -/
def resolveRate (raw : RawRecord) : JSVal :=
  firstTruthy raw ["rate (rupee/ltr)", "Rate"] (JSVal.vStr "")

/-- The canonical category text for a resolved (string) `typeValue` `t`:
`"Fuel"` when `t` contains `"fuel"` case-insensitively; `"Fuel"` forced when
the raw comment is falsy and `typeValue` is `'Other'` (or falsy); otherwise
`t` itself (lines 361–366). -/
def mkCategory (raw : RawRecord) (t : String) : String :=
  let category0 := if hasSub (toLowerJS t) "fuel" then "Fuel" else t
  if !(getJS raw "comment").truthy
      ∧ (JSVal.vStr t = JSVal.vStr "Other" ∨ (JSVal.vStr t).truthy = false)
  then "Fuel" else category0

/-- The canonical record built from one raw row whose resolved `typeValue`
is the string `t` (the returned object literal of lines 368–376). -/
def mkExpense (currentYear : ℕ) (raw : RawRecord) (t : String) : Expense :=
  let category := mkCategory raw t
  { Date := normalizeDateStr currentYear (resolveDate raw)
    Category := category
    Description :=
      jsString (jsOr (getJS raw "comment")
        (jsOr (if category = "Fuel" then JSVal.vStr "Fuel" else JSVal.vStr t) (JSVal.vStr "")))
    Amount := (parseFloatJS (stripCommas (jsString (resolveAmount raw)))).getD 0
    Odometer := numOrUndef (parseFloatJS (stripCommas (jsString (resolveOdometer raw))))
    Volume := numOrUndef (parseFloatJS (stripCommas (jsString (resolveVolume raw))))
    Rate := numOrUndef (parseFloatJS (stripRupee (stripCommas (jsString (resolveRate raw))))) }

/-- The body of the `.map(raw => ...)` in `normalizeData` (lines 344–377).
`typeValue.toLowerCase()` throws a `TypeError` when the resolved type value
is a truthy non-string (e.g. a number); every other field-level defect
degrades to a default. -/
def mapRaw (currentYear : ℕ) (raw : RawRecord) : Except String Expense :=
  match resolveType raw with
  | JSVal.vStr t => Except.ok (mkExpense currentYear raw t)
  | _ => Except.error "TypeError: typeValue.toLowerCase is not a function"

/-- Map `mapRaw` over a row list, propagating a thrown `TypeError` (a JS
`.map` aborts the whole call when the callback throws). -/
def mapRawAll (currentYear : ℕ) : List RawRecord → Except String (List Expense)
  | [] => Except.ok []
  | r :: rs =>
    match mapRaw currentYear r with
    | Except.error msg => Except.error msg
    | Except.ok e =>
      match mapRawAll currentYear rs with
      | Except.error msg => Except.error msg
      | Except.ok es => Except.ok (e :: es)

/-- Step 1 of `normalizeData` (lines 342–377): drop rows with zero keys, then
reconcile fields row by row. -/
def baseData (currentYear : ℕ) (raws : List RawRecord) : Except String (List Expense) :=
  mapRawAll currentYear (raws.filter (fun r => !(List.isEmpty r)))

/-- The comparator of step 2 (lines 380–385), as a "may stay before"
relation: ascending `new Date(...).getTime()`, ties broken by ascending
`Odometer || 0`; an unparseable date makes `getTime()` `NaN`, every
comparison against which is a tie. -/
def effLe (a b : Expense) : Bool :=
  match (parseDateJS a.Date).map timeValue, (parseDateJS b.Date).map timeValue with
  | some dA, some dB =>
    if dA ≠ dB then decide (dA ≤ dB)
    else decide (a.Odometer.getD 0 ≤ b.Odometer.getD 0)
  | _, _ => true

/-- Step 2 of `normalizeData`: `[...baseData].sort(...)`. -/
def sortForEff (es : List Expense) : List Expense := sortJS effLe es

/-- One step of the efficiency scan (lines 389–399): a qualifying entry
(truthy odometer, truthy positive volume) gets an efficiency when a carried
odometer exists and the distance is positive, and always refreshes the
carried odometer. -/
def effStep (lastFuelOdo : Option ℚ) (entry : Expense) : Expense × Option ℚ :=
  if numTruthy entry.Odometer ∧ numTruthy entry.Volume ∧ 0 < entry.Volume.getD 0 then
    let entry' :=
      match lastFuelOdo with
      | some prev =>
        let distance := entry.Odometer.getD 0 - prev
        if 0 < distance then { entry with Efficiency := some (distance / entry.Volume.getD 0) }
        else entry
      | none => entry
    (entry', some (entry.Odometer.getD 0))
  else (entry, lastFuelOdo)

/-- Step 3 of `normalizeData` (lines 387–399): the stateful efficiency scan. -/
def applyEfficiency (lastFuelOdo : Option ℚ) : List Expense → List Expense
  | [] => []
  | e :: rest =>
    let p := effStep lastFuelOdo e
    p.1 :: applyEfficiency p.2 rest

/-- The sorted, pre-scan sequence (what the `forEach` of lines 389–399
iterates over). -/
def sortedForEff (currentYear : ℕ) (raws : List RawRecord) : Except String (List Expense) :=
  (baseData currentYear raws).map sortForEff

/-- `normalizeData` (lines 338–402). -/
def normalizeData (currentYear : ℕ) (raws : List RawRecord) : Except String (List Expense) :=
  (sortedForEff currentYear raws).map (applyEfficiency none)

/-! ## Display ordering (`processData`, lines 66–70) -/

/-- `a.Date ? new Date(a.Date).getTime() : 0`: the display sort key; `none`
models `NaN` (a truthy but unparseable date). -/
def displayKey (e : Expense) : Option ℤ :=
  if e.Date.isEmpty then some 0
  else (parseDateJS e.Date).map timeValue

/-- The display comparator (`dateB - dateA`, newest first) as a "may stay
before" relation; `NaN` comparisons are ties. -/
def displayLe (a b : Expense) : Bool :=
  match displayKey a, displayKey b with
  | some dA, some dB => decide (dB ≤ dA)
  | _, _ => true

/-- The `[...expenses].sort(...)` of `processData`. -/
def sortDisplay (es : List Expense) : List Expense := sortJS displayLe es

/-! ## Spec-modelled efficiency scan (for claim C1)

Modelled from the spec (§4.4): an entry qualifies exactly when it has a
present odometer reading and a present, strictly positive volume; a
qualifying entry receives `efficiency = (odometer - carried) / volume`
exactly when a carried odometer exists and that distance is strictly
positive; the carried odometer becomes the entry's reading after every
qualifying entry; non-qualifying entries receive nothing and change
nothing. -/
def effStepSpec (carried : Option ℚ) (entry : Expense) : Expense × Option ℚ :=
  if entry.Odometer.isSome ∧ entry.Volume.isSome ∧ 0 < entry.Volume.getD 0 then
    let entry' :=
      match carried with
      | some prev =>
        if 0 < entry.Odometer.getD 0 - prev then
          { entry with
            Efficiency := some ((entry.Odometer.getD 0 - prev) / entry.Volume.getD 0) }
        else entry
      | none => entry
    (entry', some (entry.Odometer.getD 0))
  else (entry, carried)

/-- Modelled from the spec (§4.4): the scan, folded over the entries in
order. -/
def applyEfficiencySpec (carried : Option ℚ) : List Expense → List Expense
  | [] => []
  | e :: rest =>
    let p := effStepSpec carried e
    p.1 :: applyEfficiencySpec p.2 rest

/-! ## Derived definitions used by the claims -/

/-- The record with its derived `Efficiency` removed (every other field of an
entry is left untouched by the efficiency scan). -/
def eraseEff (e : Expense) : Expense := { e with Efficiency := none }

/-- A rational with a finite decimal expansion (every JS float value is
one; so is every `parseFloat` result). -/
def DecimalRat (q : ℚ) : Prop := ∃ (n : ℤ) (k : ℕ), q = (n : ℚ) / 10 ^ k

/-- A canonical expense, re-encoded as the raw row object that serializing it
to JSON and re-reading it yields (claim C3 feeds `normalizeData` output back
in as raw input); `undefined` optional fields are absent keys. -/
def expenseToRaw (e : Expense) : RawRecord :=
  [("Date", JSVal.vStr e.Date), ("Category", JSVal.vStr e.Category),
   ("Description", JSVal.vStr e.Description), ("Amount", JSVal.vNum e.Amount)]
  ++ (match e.Odometer with | some q => [("Odometer", JSVal.vNum q)] | none => [])
  ++ (match e.Volume with | some q => [("Volume", JSVal.vNum q)] | none => [])
  ++ (match e.Rate with | some q => [("Rate", JSVal.vNum q)] | none => [])
  ++ (match e.Efficiency with | some q => [("Efficiency", JSVal.vNum q)] | none => [])

/-- What a second normalization pass does to a first-pass `Category`. -/
def amendCat (c : String) : String := if c = "Other" then "Fuel" else c

/-- The (`Date`, `Category`, `Amount`) view of a record (the fields claim C3
is about). -/
def projDCA (e : Expense) : String × String × ℚ := (e.Date, e.Category, e.Amount)

/-- The (`Date`, `Category`, `Amount`) view after the second-pass category
rewrite. -/
def projDCAAmended (e : Expense) : String × String × ℚ :=
  (e.Date, amendCat e.Category, e.Amount)

/-- Invariants every record produced by the per-row mapping satisfies (used
to settle C1 and C3). -/
def ExpInv (currentYear : ℕ) (e : Expense) : Prop :=
  normalizeDateStr currentYear (JSVal.vStr e.Date) = e.Date ∧
  e.Category ≠ "" ∧
  (e.Category = "Fuel" ∨ hasSub (toLowerJS e.Category) "fuel" = false) ∧
  DecimalRat e.Amount ∧
  e.Odometer ≠ some 0 ∧ e.Volume ≠ some 0 ∧ e.Efficiency = none ∧
  (∀ q, e.Odometer = some q → DecimalRat q)

/-! ## Concrete records used by claim witnesses and counterexamples -/

/-- The spec's two-refuel scenario, first row (§8). -/
def sampleRow1 : RawRecord :=
  [("date", JSVal.vStr "15 Jan"), ("comment", JSVal.vStr "fuel"),
   ("Price", JSVal.vStr "1,000"), ("odometer reading", JSVal.vStr "10000"),
   ("volume in ltr", JSVal.vStr "10")]

/-- The spec's two-refuel scenario, second row (§8). -/
def sampleRow2 : RawRecord :=
  [("date", JSVal.vStr "20 Jan"), ("comment", JSVal.vStr "fuel"),
   ("Price", JSVal.vStr "1,200"), ("odometer reading", JSVal.vStr "10300"),
   ("volume in ltr", JSVal.vStr "12")]

/-- The scenario rows after field reconciliation and chronological ordering
(current year 2024). -/
def sampleSorted : List Expense :=
  [{ Date := "15 Jan 2024", Category := "Fuel", Description := "fuel", Amount := 1000,
     Odometer := some 10000, Volume := some 10 },
   { Date := "20 Jan 2024", Category := "Fuel", Description := "fuel", Amount := 1200,
     Odometer := some 10300, Volume := some 12 }]

/-- A two-row input with one fully empty row (for the length claim). -/
def sampleRows6 : List RawRecord := [[("Price", JSVal.vStr "5")], []]

/-- The canonical output of `sampleRows6`. -/
def sampleOut6 : List Expense :=
  [{ Date := "", Category := "Fuel", Description := "Fuel", Amount := 5 }]

/-- A raw row that supplies an explicit category field (`type` set to
`"Other"`); claim C2 says such a row must not be forced to `"Fuel"`. -/
def rowTypeOther : RawRecord := [("type", JSVal.vStr "Other")]

/-- What the code actually produces for `rowTypeOther`: the category is
forced to `"Fuel"` although an explicit category field was supplied. -/
def outTypeOther : Expense :=
  { Date := "", Category := "Fuel", Description := "Fuel", Amount := 0 }

/-- A raw row with an explicit non-`"Other"` category (claim C2's witness). -/
def rowTypeService : RawRecord := [("type", JSVal.vStr "Service")]

/-- A raw row whose first normalization pass yields category `"Other"`
(claim C3). -/
def rowCommentOther : RawRecord :=
  [("comment", JSVal.vStr "Other"), ("Price", JSVal.vStr "5")]

/-- First-pass output of `rowCommentOther`. -/
def outPass1 : Expense :=
  { Date := "", Category := "Other", Description := "Other", Amount := 5 }

/-- Second-pass output: re-normalizing `outPass1` flips its category, since
the re-encoded row has no `comment` key and its `Category` is `"Other"`. -/
def outPass2 : Expense :=
  { Date := "", Category := "Fuel", Description := "Fuel", Amount := 5 }

/-- A raw row whose `comment` is a number (claim C7): the resolved
`typeValue` is a truthy non-string, so `typeValue.toLowerCase()` throws. -/
def rowNumComment : RawRecord := [("comment", JSVal.vNum 42)]

/-- A raw row with a string-valued comment (claim C7's witness). -/
def rowStrComment : RawRecord := [("comment", JSVal.vStr "service visit")]

/-- A raw row whose amount carries a currency glyph (claim C8). -/
def rowRupeeAmount : RawRecord := [("Price", JSVal.vStr "₹100")]

/-- A raw row with a thousands-separated amount (claim C8's witness). -/
def rowCommaAmount : RawRecord := [("Price", JSVal.vStr "1,234.50")]

/-- A record with a truthy but unparseable date (claim C9). -/
def dispGarbage : Expense :=
  { Date := "garbage", Category := "Other", Description := "Other", Amount := 0 }

/-- A record with a parseable date (claim C9). -/
def dispDated : Expense :=
  { Date := "15 Jan 2024", Category := "Fuel", Description := "Fuel", Amount := 100 }

/-- A record with an empty date (claim C9): its display key is the epoch. -/
def dispEmpty : Expense :=
  { Date := "", Category := "Other", Description := "Other", Amount := 0 }

/-- Four raw rows, two of them with unparseable dates (claim C10): the
parseable dates arrive newest first. -/
def c10rows : List RawRecord :=
  [[("date", JSVal.vStr "15 Jan 2020"), ("Price", JSVal.vStr "10")],
   [("date", JSVal.vStr "garbage")],
   [("date", JSVal.vStr "nonsense")],
   [("date", JSVal.vStr "15 Jan 2015")]]

/-- The canonical record of `c10rows`' first row. -/
def c10e2020 : Expense :=
  { Date := "15 Jan 2020", Category := "Fuel", Description := "Fuel", Amount := 10 }

/-- The canonical record of `c10rows`' `"nonsense"` row. -/
def c10eNon : Expense :=
  { Date := "nonsense", Category := "Fuel", Description := "Fuel", Amount := 0 }

/-- The canonical record of `c10rows`' `"garbage"` row. -/
def c10eGar : Expense :=
  { Date := "garbage", Category := "Fuel", Description := "Fuel", Amount := 0 }

/-- The canonical record of `c10rows`' last row. -/
def c10e2015 : Expense :=
  { Date := "15 Jan 2015", Category := "Fuel", Description := "Fuel", Amount := 0 }

/-- What `normalizeData` actually delivers for `c10rows`: the 2020 record
comes before the 2015 record because the `NaN` dates between them turn every
comparison into a tie. -/
def c10out : List Expense := [c10e2020, c10eNon, c10eGar, c10e2015]

/-- Two raw rows with parseable dates, newest first (claim C10's witness). -/
def c10wRows : List RawRecord :=
  [[("date", JSVal.vStr "15 Jan 2020"), ("odometer reading", JSVal.vStr "100")],
   [("date", JSVal.vStr "15 Jan 2015")]]

/-- `normalizeData`'s (ascending) delivery for `c10wRows`. -/
def c10wOut : List Expense :=
  [{ Date := "15 Jan 2015", Category := "Fuel", Description := "Fuel", Amount := 0 },
   { Date := "15 Jan 2020", Category := "Fuel", Description := "Fuel", Amount := 0,
     Odometer := some 100 }]

/-! ## Lemmas: the stable sort -/

theorem splitList_length {α : Type _} :
    ∀ l : List α, (splitList l).1.length = (l.length + 1) / 2 ∧
      (splitList l).2.length = l.length / 2 := by
  intro l
  induction l with
  | nil => simp [splitList]
  | cons a rest ih =>
    obtain ⟨ih1, ih2⟩ := ih
    simp only [splitList, List.length_cons]
    refine ⟨?_, ?_⟩ <;> omega

theorem splitList_perm {α : Type _} (l : List α) :
    ((splitList l).1 ++ (splitList l).2).Perm l := by
  induction l with
  | nil => exact List.Perm.nil
  | cons a rest ih =>
    simp only [splitList, List.cons_append]
    exact (List.perm_append_comm.trans ih).cons a

theorem mergeAux_perm {α : Type _} (le : α → α → Bool) :
    ∀ (fuel : ℕ) (xs ys : List α), (mergeAux le fuel xs ys).Perm (xs ++ ys) := by
  intro fuel
  induction fuel with
  | zero => intro xs ys; exact List.Perm.refl _
  | succ fuel ih =>
    intro xs ys
    match xs, ys with
    | [], ys => simp [mergeAux]
    | x :: xs, [] => simp [mergeAux]
    | x :: xs, y :: ys =>
      unfold mergeAux
      by_cases h : le x y = true
      · simpa [h] using ((ih xs (y :: ys)).cons x)
      · simp only [h, if_false]
        exact ((ih (x :: xs) ys).cons y).trans List.perm_middle.symm

theorem mergeJS_perm {α : Type _} (le : α → α → Bool) (xs ys : List α) :
    (mergeJS le xs ys).Perm (xs ++ ys) := mergeAux_perm le _ xs ys

theorem sortJSAux_perm {α : Type _} (le : α → α → Bool) :
    ∀ (fuel : ℕ) (l : List α), (sortJSAux le fuel l).Perm l := by
  intro fuel
  induction fuel with
  | zero => intro l; exact List.Perm.refl _
  | succ fuel ih =>
    intro l
    match l with
    | [] => simp [sortJSAux]
    | [a] => simp [sortJSAux]
    | a :: b :: rest =>
      unfold sortJSAux
      refine ((mergeJS_perm le _ _).trans ?_)
      exact (( (ih _).append (ih _)).trans (splitList_perm (a :: b :: rest)))

theorem sortJS_perm {α : Type _} (le : α → α → Bool) (l : List α) :
    (sortJS le l).Perm l := sortJSAux_perm le l.length l

theorem mem_sortJS_iff {α : Type _} (le : α → α → Bool) (l : List α) (z : α) :
    z ∈ sortJS le l ↔ z ∈ l := (sortJS_perm le l).mem_iff

theorem pairwise_mergeAux {α : Type _} (le : α → α → Bool) :
    ∀ (fuel : ℕ) (xs ys : List α), xs.length + ys.length ≤ fuel →
      List.Pairwise (fun a b => le a b = true) xs →
      List.Pairwise (fun a b => le a b = true) ys →
      (∀ a ∈ xs, ∀ b ∈ ys, le a b = true ∨ le b a = true) →
      (∀ a b c, a ∈ xs ++ ys → b ∈ xs ++ ys → c ∈ xs ++ ys →
        le a b = true → le b c = true → le a c = true) →
      List.Pairwise (fun a b => le a b = true) (mergeAux le fuel xs ys) := by
  intro fuel
  induction fuel with
  | zero =>
    intro xs ys hlen _ _ _ _
    have hxs : xs = [] := List.length_eq_zero.mp (by omega)
    have hys : ys = [] := List.length_eq_zero.mp (by omega)
    subst hxs; subst hys
    simp [mergeAux]
  | succ fuel ih =>
    intro xs ys hlen hpx hpy htot htrans
    match xs, ys with
    | [], ys => simpa [mergeAux] using hpy
    | x :: xs, [] => simpa [mergeAux] using hpx
    | x :: xs, y :: ys =>
      unfold mergeAux
      have hmem : ∀ {as bs : List α} (z : α), z ∈ mergeAux le fuel as bs → z ∈ as ++ bs :=
        fun z hz => (mergeAux_perm le fuel _ _).mem_iff.mp hz
      by_cases hxy : le x y = true
      · rw [if_pos hxy, List.pairwise_cons]
        constructor
        · intro z hz
          rcases List.mem_append.mp (hmem z hz) with hz1 | hz1
          · exact (List.pairwise_cons.mp hpx).1 z hz1
          · rcases List.mem_cons.mp hz1 with rfl | hz2
            · exact hxy
            · have hyz : le y z = true := (List.pairwise_cons.mp hpy).1 z hz2
              exact htrans x y z (by simp) (by simp) (by simp [hz2]) hxy hyz
        · refine ih xs (y :: ys) (by simp at hlen ⊢; omega)
            (List.pairwise_cons.mp hpx).2 hpy
            (fun a ha b hb => htot a (by simp [ha]) b hb)
            (fun a b c ha hb hc => htrans a b c
              (by simp at ha ⊢; tauto) (by simp at hb ⊢; tauto) (by simp at hc ⊢; tauto))
      · have hyx : le y x = true := by
          rcases htot x (by simp) y (by simp) with h | h
          · exact absurd h hxy
          · exact h
        rw [if_neg hxy, List.pairwise_cons]
        constructor
        · intro z hz
          rcases List.mem_append.mp (hmem z hz) with hz1 | hz1
          · rcases List.mem_cons.mp hz1 with rfl | hz2
            · exact hyx
            · have hxz : le x z = true := (List.pairwise_cons.mp hpx).1 z hz2
              exact htrans y x z (by simp) (by simp) (by simp [hz2]) hyx hxz
          · exact (List.pairwise_cons.mp hpy).1 z hz1
        · refine ih (x :: xs) ys (by simp at hlen ⊢; omega)
            hpx (List.pairwise_cons.mp hpy).2
            (fun a ha b hb => htot a ha b (by simp [hb]))
            (fun a b c ha hb hc => htrans a b c
              (by simp at ha ⊢; tauto) (by simp at hb ⊢; tauto) (by simp at hc ⊢; tauto))

theorem pairwise_sortJSAux {α : Type _} (le : α → α → Bool) :
    ∀ (fuel : ℕ) (l : List α), l.length ≤ fuel →
      (∀ a ∈ l, ∀ b ∈ l, le a b = true ∨ le b a = true) →
      (∀ a ∈ l, ∀ b ∈ l, ∀ c ∈ l, le a b = true → le b c = true → le a c = true) →
      List.Pairwise (fun a b => le a b = true) (sortJSAux le fuel l) := by
  intro fuel
  induction fuel with
  | zero =>
    intro l hlen _ _
    have : l = [] := List.length_eq_zero.mp (by omega)
    subst this
    simp [sortJSAux]
  | succ fuel ih =>
    intro l hlen htot htrans
    match l with
    | [] => simp [sortJSAux]
    | [a] => simp [sortJSAux]
    | a :: b :: rest =>
      unfold sortJSAux
      set l0 := a :: b :: rest with hl0
      have hsplit := splitList_perm l0
      have hlen1 := (splitList_length l0).1
      have hlen2 := (splitList_length l0).2
      have hm1 : ∀ z ∈ (splitList l0).1, z ∈ l0 := fun z hz =>
        hsplit.mem_iff.mp (List.mem_append.mpr (Or.inl hz))
      have hm2 : ∀ z ∈ (splitList l0).2, z ∈ l0 := fun z hz =>
        hsplit.mem_iff.mp (List.mem_append.mpr (Or.inr hz))
      have hn : 2 ≤ l0.length := by simp [hl0]
      have hs1 : (splitList l0).1.length ≤ fuel := by
        rw [hlen1]; simp only [hl0, List.length_cons] at hlen ⊢; omega
      have hs2 : (splitList l0).2.length ≤ fuel := by
        rw [hlen2]; simp only [hl0, List.length_cons] at hlen ⊢; omega
      have hp1 := ih (splitList l0).1 hs1
        (fun x hx y hy => htot x (hm1 x hx) y (hm1 y hy))
        (fun x hx y hy z hz => htrans x (hm1 x hx) y (hm1 y hy) z (hm1 z hz))
      have hp2 := ih (splitList l0).2 hs2
        (fun x hx y hy => htot x (hm2 x hx) y (hm2 y hy))
        (fun x hx y hy z hz => htrans x (hm2 x hx) y (hm2 y hy) z (hm2 z hz))
      have hms1 : ∀ z ∈ sortJSAux le fuel (splitList l0).1, z ∈ l0 := fun z hz =>
        hm1 z ((sortJSAux_perm le fuel _).mem_iff.mp hz)
      have hms2 : ∀ z ∈ sortJSAux le fuel (splitList l0).2, z ∈ l0 := fun z hz =>
        hm2 z ((sortJSAux_perm le fuel _).mem_iff.mp hz)
      exact pairwise_mergeAux le _ _ _ (le_refl _) hp1 hp2
        (fun x hx y hy => htot x (hms1 x hx) y (hms2 y hy))
        (fun x y z hx hy hz hxy hyz => by
          rcases List.mem_append.mp hx with h | h <;>
          rcases List.mem_append.mp hy with h' | h' <;>
          rcases List.mem_append.mp hz with h'' | h'' <;>
          exact htrans x (by first | exact hms1 x h | exact hms2 x h)
            y (by first | exact hms1 y h' | exact hms2 y h')
            z (by first | exact hms1 z h'' | exact hms2 z h'') hxy hyz)

/-- `sortJS` sorts, provided the comparator is total and transitive on the
elements of the list (which a `NaN`-free JS comparator is). -/
theorem pairwise_sortJS {α : Type _} (le : α → α → Bool) (l : List α)
    (htot : ∀ a ∈ l, ∀ b ∈ l, le a b = true ∨ le b a = true)
    (htrans : ∀ a ∈ l, ∀ b ∈ l, ∀ c ∈ l, le a b = true → le b c = true → le a c = true) :
    List.Pairwise (fun a b => le a b = true) (sortJS le l) :=
  pairwise_sortJSAux le l.length l (le_refl _) htot htrans

/-! ## Lemmas: pipeline shape -/

theorem mapRawAll_iff_forall2 (cy : ℕ) :
    ∀ (l : List RawRecord) (out : List Expense),
      (mapRawAll cy l = Except.ok out ↔
        List.Forall₂ (fun r e => mapRaw cy r = Except.ok e) l out) := by
  intro l
  induction l with
  | nil =>
    intro out
    constructor
    · intro h
      cases out with
      | nil => exact List.Forall₂.nil
      | cons e es => simp [mapRawAll] at h
    · intro h
      cases h
      rfl
  | cons r rs ih =>
    intro out
    constructor
    · intro h
      unfold mapRawAll at h
      cases he : mapRaw cy r with
      | error msg => rw [he] at h; exact absurd h (by simp)
      | ok e =>
        rw [he] at h
        cases hes : mapRawAll cy rs with
        | error msg => rw [hes] at h; exact absurd h (by simp)
        | ok es =>
          rw [hes] at h
          simp only [Except.ok.injEq] at h
          subst h
          exact List.Forall₂.cons he ((ih es).mp hes)
    · intro h
      cases h with
      | cons he hes =>
        unfold mapRawAll
        rw [he, (ih _).mpr hes]

theorem mapRawAll_length (cy : ℕ) (l : List RawRecord) (out : List Expense)
    (h : mapRawAll cy l = Except.ok out) : out.length = l.length :=
  (((mapRawAll_iff_forall2 cy l out).mp h).length_eq).symm

theorem mapRawAll_mem (cy : ℕ) (l : List RawRecord) (out : List Expense)
    (h : mapRawAll cy l = Except.ok out) :
    ∀ e ∈ out, ∃ r ∈ l, mapRaw cy r = Except.ok e := by
  have h2 := (mapRawAll_iff_forall2 cy l out).mp h
  clear h
  induction h2 with
  | nil => intro e he; cases he
  | cons hre hall ih =>
    intro e he
    rcases List.mem_cons.mp he with rfl | he2
    · exact ⟨_, by simp, hre⟩
    · obtain ⟨r, hr, hok⟩ := ih e he2
      exact ⟨r, by simp [hr], hok⟩

theorem mapRawAll_ok_of_forall (cy : ℕ) (l : List RawRecord)
    (h : ∀ r ∈ l, ∃ e, mapRaw cy r = Except.ok e) :
    ∃ out, mapRawAll cy l = Except.ok out := by
  induction l with
  | nil => exact ⟨[], rfl⟩
  | cons r rs ih =>
    obtain ⟨e, he⟩ := h r (by simp)
    obtain ⟨es, hes⟩ := ih (fun r' hr' => h r' (by simp [hr']))
    exact ⟨e :: es, by unfold mapRawAll; rw [he, hes]⟩

theorem effStep_fst_eraseEff (s : Option ℚ) (e : Expense) :
    eraseEff (effStep s e).1 = eraseEff e := by
  unfold effStep
  split
  · cases s with
    | none => rfl
    | some prev =>
      simp only
      split <;> rfl
  · rfl

theorem applyEfficiency_map_eraseEff (s : Option ℚ) (es : List Expense) :
    (applyEfficiency s es).map eraseEff = es.map eraseEff := by
  induction es generalizing s with
  | nil => rfl
  | cons e rest ih =>
    simp only [applyEfficiency, List.map_cons, effStep_fst_eraseEff, ih]

theorem applyEfficiency_length (s : Option ℚ) (es : List Expense) :
    (applyEfficiency s es).length = es.length := by
  have := congrArg List.length (applyEfficiency_map_eraseEff s es)
  simpa using this

theorem sortJS_length {α : Type _} (le : α → α → Bool) (l : List α) :
    (sortJS le l).length = l.length := (sortJS_perm le l).length_eq

/-- Unpack a successful `normalizeData` run into its stages. -/
theorem normalizeData_ok_elim (cy : ℕ) (raws : List RawRecord) (out : List Expense)
    (h : normalizeData cy raws = Except.ok out) :
    ∃ base, mapRawAll cy (raws.filter (fun r => !(List.isEmpty r))) = Except.ok base ∧
      out = applyEfficiency none (sortJS effLe base) := by
  unfold normalizeData sortedForEff baseData at h
  cases hb : mapRawAll cy (raws.filter (fun r => !(List.isEmpty r))) with
  | error msg => rw [hb] at h; simp [Except.map] at h
  | ok base =>
    rw [hb] at h
    simp only [Except.map, Except.ok.injEq] at h
    exact ⟨base, rfl, h.symm⟩

/-! ## Lemmas: digits and `parseFloat` -/

theorem isDigit_facts (c : Char) (h : c.isDigit = true) :
    isWS c = false ∧ c ≠ '-' ∧ c ≠ '+' ∧ c ≠ '.' ∧ c ≠ ' ' := by
  have hn : 48 ≤ c.toNat ∧ c.toNat ≤ 57 := by
    simp only [Char.isDigit, decide_eq_true_eq, Bool.and_eq_true] at h
    exact ⟨h.1, h.2⟩
  have hne : ∀ (d : Char), d.toNat < 48 ∨ 57 < d.toNat → c ≠ d := by
    intro d hd hc
    subst hc
    omega
  have hws : isWS c = false := by
    cases hw : isWS c with
    | false => rfl
    | true =>
      simp only [isWS, Bool.or_eq_true, decide_eq_true_eq] at hw
      have hlist : c = ' ' ∨ c = '\t' ∨ c = '\n' ∨ c = '\r' := by tauto
      rcases hlist with h1 | h1 | h1 | h1 <;> (subst h1; exact absurd hn (by decide))
  exact ⟨hws, hne '-' (by decide), hne '+' (by decide), hne '.' (by decide), hne ' ' (by decide)⟩

theorem splitSign_cons (c : Char) (l : List Char) :
    splitSign (c :: l) =
      if c = '-' then (true, l) else if c = '+' then (false, l) else (false, c :: l) := rfl

theorem splitFrac_cons (c : Char) (l : List Char) :
    splitFrac (c :: l) =
      if c = '.' then (l.takeWhile Char.isDigit, l.dropWhile Char.isDigit) else ([], c :: l) := rfl

theorem dropWhile_isWS_of_head_digit (c : Char) (l : List Char) (h : c.isDigit = true) :
    (c :: l).dropWhile isWS = c :: l := by
  rw [List.dropWhile_cons, (isDigit_facts c h).1]
  simp

/-- Evaluate `parseFloatChars` on a well-shaped literal:
`[-] I [. F]` with `I` non-empty digits and `F` digits. -/
theorem parseFloatChars_shape (neg : Bool) (I F : List Char)
    (hI : ∀ c ∈ I, c.isDigit = true) (hne : I ≠ [])
    (hF : ∀ c ∈ F, c.isDigit = true) :
    parseFloatChars ((if neg then ['-'] else []) ++ I ++ (if F.isEmpty then [] else '.' :: F))
      = some ((if neg then -1 else 1) *
          ((digitsVal I : ℚ) + (digitsVal F : ℚ) / 10 ^ F.length)) := by
  obtain ⟨c, I', rfl⟩ : ∃ c I', I = c :: I' := by
    cases I with
    | nil => exact absurd rfl hne
    | cons c I' => exact ⟨c, I', rfl⟩
  have hc : c.isDigit = true := hI c (by simp)
  obtain ⟨hws, hm, hp, hdot, _⟩ := isDigit_facts c hc
  have htake : ((c :: I') ++ (if F.isEmpty then [] else '.' :: F)).takeWhile Char.isDigit
        = c :: I' ∧
      ((c :: I') ++ (if F.isEmpty then [] else '.' :: F)).dropWhile Char.isDigit
        = (if F.isEmpty then [] else '.' :: F) := by
    by_cases hFe : F.isEmpty = true
    · rw [if_pos hFe, List.append_nil]
      exact ⟨(takeWhile_all Char.isDigit (c :: I') hI).1,
        (takeWhile_all Char.isDigit (c :: I') hI).2⟩
    · rw [if_neg hFe]
      exact takeWhile_all_append Char.isDigit (c :: I') '.' F hI (by decide)
  have hfr : splitFrac (if F.isEmpty then [] else '.' :: F) = (F, []) := by
    by_cases hFe : F.isEmpty = true
    · have hF0 : F = [] := by
        cases F with
        | nil => rfl
        | cons a b => simp at hFe
      rw [if_pos hFe, hF0]
      rfl
    · rw [if_neg hFe, splitFrac_cons, if_pos rfl, (takeWhile_all Char.isDigit F hF).1,
        (takeWhile_all Char.isDigit F hF).2]
  simp only [List.cons_append] at htake
  cases neg with
  | false =>
    simp only [Bool.false_eq_true, if_false, List.nil_append]
    simp only [parseFloatChars, List.cons_append]
    simp only [dropWhile_isWS_of_head_digit c _ hc]
    rw [splitSign_cons, if_neg hm, if_neg hp]
    simp only [htake.1, htake.2, hfr]
    simp only [List.isEmpty_cons, Bool.false_and, Bool.false_eq_true, if_false]
    simp [parseExp, mulPow10]
  | true =>
    simp only [if_true, List.cons_append, List.nil_append]
    simp only [parseFloatChars]
    have hdw : (('-' :: (c :: (I' ++ (if F.isEmpty then [] else '.' :: F)))).dropWhile isWS)
        = '-' :: (c :: (I' ++ (if F.isEmpty then [] else '.' :: F))) := by
      rw [List.dropWhile_cons, show isWS '-' = false from rfl]
      simp
    rw [hdw, splitSign_cons, if_pos rfl]
    simp only [htake.1, htake.2, hfr]
    simp only [List.isEmpty_cons, Bool.false_and, Bool.false_eq_true, if_false]
    simp [parseExp, mulPow10]

/-! ## Lemmas: decimal rationals -/

theorem decimalRat_mant (a b k : ℕ) : DecimalRat ((a : ℚ) + (b : ℚ) / 10 ^ k) := by
  refine ⟨(a : ℤ) * 10 ^ k + b, k, ?_⟩
  have h10 : ((10 : ℚ) ^ k) ≠ 0 := by positivity
  push_cast
  field_simp

theorem decimalRat_mulPow10 (q : ℚ) (e : ℤ) (h : DecimalRat q) : DecimalRat (mulPow10 q e) := by
  obtain ⟨n, k, rfl⟩ := h
  unfold mulPow10
  split
  · refine ⟨n * 10 ^ e.toNat, k, ?_⟩
    push_cast
    ring
  · refine ⟨n, k + (-e).toNat, ?_⟩
    rw [pow_add, ← div_div]

theorem decimalRat_signed (q : ℚ) (sgn : Bool) (h : DecimalRat q) :
    DecimalRat ((if sgn then (-1 : ℚ) else 1) * q) := by
  obtain ⟨n, k, rfl⟩ := h
  cases sgn
  · exact ⟨n, k, by simp⟩
  · exact ⟨-n, k, by push_cast; field_simp⟩

theorem decimalRat_zero : DecimalRat 0 := ⟨0, 0, by simp⟩

/-- Everything `parseFloat` returns has a finite decimal expansion. -/
theorem decimalRat_of_parseFloat (l : List Char) (q : ℚ)
    (h : parseFloatChars l = some q) : DecimalRat q := by
  simp only [parseFloatChars] at h
  split at h
  · exact absurd h (by simp)
  · simp only [Option.some.injEq] at h
    subst h
    exact decimalRat_signed _ _ (decimalRat_mulPow10 _ _ (decimalRat_mant _ _ _))

/-! ## Lemmas: multiplicity and denominators of the form `2^a * 5^b` -/

theorem multAux_spec (p : ℕ) (hp : 2 ≤ p) :
    ∀ (fuel n : ℕ), n ≠ 0 → n ≤ fuel →
      p ^ (multAux p fuel n) ∣ n ∧ ¬ p ^ (multAux p fuel n + 1) ∣ n := by
  intro fuel
  induction fuel with
  | zero => intro n hn hf; omega
  | succ fuel ih =>
    intro n hn hf
    unfold multAux
    by_cases hc : 2 ≤ p ∧ n ≠ 0 ∧ n % p = 0
    · rw [if_pos hc]
      have hpd : p ∣ n := Nat.dvd_of_mod_eq_zero hc.2.2
      have hq : n / p ≠ 0 := by
        intro h0
        have hnp := Nat.div_mul_cancel hpd
        rw [h0, Nat.zero_mul] at hnp
        exact hn hnp.symm
      have hlt : n / p < n := Nat.div_lt_self (by omega) (by omega)
      obtain ⟨h1, h2⟩ := ih (n / p) hq (by omega)
      set a := multAux p fuel (n / p) with ha
      constructor
      · obtain ⟨m, hm⟩ := h1
        refine ⟨m, ?_⟩
        calc n = p * (n / p) := (Nat.mul_div_cancel' hpd).symm
        _ = p * (p ^ a * m) := by rw [hm]
        _ = p ^ (a + 1) * m := by ring
      · intro hdvd
        apply h2
        obtain ⟨m, hm⟩ := hdvd
        refine ⟨m, ?_⟩
        have hrw : n = p * (p ^ (a + 1) * m) := by
          rw [hm]; ring
        rw [hrw, Nat.mul_div_cancel_left _ (by omega : 0 < p)]
    · rw [if_neg hc]
      have hmod : n % p ≠ 0 := by tauto
      constructor
      · simp
      · intro hdvd
        rw [pow_one] at hdvd
        exact hmod (Nat.mod_eq_zero_of_dvd hdvd)

theorem multiplic_spec (p n : ℕ) (hp : 2 ≤ p) (hn : n ≠ 0) :
    p ^ (multiplic p n) ∣ n ∧ ¬ p ^ (multiplic p n + 1) ∣ n :=
  multAux_spec p hp n n hn (le_refl n)

theorem multiplic_eq_of (p n a : ℕ) (hp : 2 ≤ p) (hn : n ≠ 0)
    (h1 : p ^ a ∣ n) (h2 : ¬ p ^ (a + 1) ∣ n) : multiplic p n = a := by
  obtain ⟨hm1, hm2⟩ := multiplic_spec p n hp hn
  rcases Nat.lt_trichotomy (multiplic p n) a with hlt | heq | hgt
  · exact absurd (dvd_trans (pow_dvd_pow p (by omega)) h1) hm2
  · exact heq
  · exact absurd (dvd_trans (pow_dvd_pow p (by omega)) hm1) h2

/-- A non-zero divisor of a power of ten is `2^a * 5^b`. -/
theorem eq_two_five_pow_of_dvd_pow_ten (k : ℕ) (d : ℕ) (hd : d ≠ 0) (hdvd : d ∣ 10 ^ k) :
    ∃ a b, d = 2 ^ a * 5 ^ b := by
  induction d using Nat.strong_induction_on with
  | _ d ih =>
  by_cases h1 : d = 1
  · exact ⟨0, 0, by simp [h1]⟩
  · obtain ⟨p, hp, hpd⟩ := Nat.exists_prime_and_dvd h1
    have hp10 : p ∣ 10 := hp.dvd_of_dvd_pow (dvd_trans hpd hdvd)
    have hple : p ≤ 10 := Nat.le_of_dvd (by norm_num) hp10
    have hp25 : p = 2 ∨ p = 5 := by
      interval_cases p <;> revert hp hp10 <;> decide
    have hdp_lt : d / p < d := Nat.div_lt_self (by omega) hp.one_lt
    have hdp_ne : d / p ≠ 0 := by
      intro h0
      have hnp := Nat.div_mul_cancel hpd
      rw [h0, Nat.zero_mul] at hnp
      exact hd hnp.symm
    have hdp_dvd : d / p ∣ 10 ^ k := dvd_trans (Nat.div_dvd_of_dvd hpd) hdvd
    obtain ⟨a, b, hab⟩ := ih (d / p) hdp_lt hdp_ne hdp_dvd
    have hd_eq : d = p * (d / p) := (Nat.mul_div_cancel' hpd).symm
    rcases hp25 with rfl | rfl
    · exact ⟨a + 1, b, by rw [hd_eq, hab]; ring⟩
    · exact ⟨a, b + 1, by rw [hd_eq, hab]; ring⟩

theorem two_not_dvd_five_pow (b : ℕ) : ¬ (2 : ℕ) ∣ 5 ^ b := by
  intro h
  have hp : (2 : ℕ).Prime := by norm_num
  have := hp.dvd_of_dvd_pow h
  norm_num at this

theorem five_not_dvd_two_pow (a : ℕ) : ¬ (5 : ℕ) ∣ 2 ^ a := by
  intro h
  have hp : (5 : ℕ).Prime := by norm_num
  have := hp.dvd_of_dvd_pow h
  norm_num at this

theorem multiplic_two_of_shape (a b : ℕ) : multiplic 2 (2 ^ a * 5 ^ b) = a := by
  have hne : 2 ^ a * 5 ^ b ≠ 0 := by positivity
  refine multiplic_eq_of 2 _ a (by norm_num) hne ⟨5 ^ b, rfl⟩ ?_
  intro hdvd
  have h2 : 2 ^ a * 2 ∣ 2 ^ a * 5 ^ b := by
    rw [← pow_succ]
    exact hdvd
  have := (Nat.mul_dvd_mul_iff_left (by positivity : 0 < 2 ^ a)).mp h2
  exact two_not_dvd_five_pow b this

theorem multiplic_five_of_shape (a b : ℕ) : multiplic 5 (2 ^ a * 5 ^ b) = b := by
  have hne : 2 ^ a * 5 ^ b ≠ 0 := by positivity
  refine multiplic_eq_of 5 _ b (by norm_num) hne ⟨2 ^ a, by ring⟩ ?_
  intro hdvd
  have h2 : 5 ^ b * 5 ∣ 5 ^ b * 2 ^ a := by
    rw [← pow_succ]
    calc 5 ^ (b + 1) ∣ 2 ^ a * 5 ^ b := hdvd
    _ = 5 ^ b * 2 ^ a := by ring
  have := (Nat.mul_dvd_mul_iff_left (by positivity : 0 < 5 ^ b)).mp h2
  exact five_not_dvd_two_pow a this

/-- The denominator of a decimal rational is `2^a * 5^b`, with `a`, `b` its
2- and 5-multiplicities. -/
theorem den_shape_of_decimalRat (q : ℚ) (hq : DecimalRat q) :
    q.den = 2 ^ (multiplic 2 q.den) * 5 ^ (multiplic 5 q.den) := by
  obtain ⟨n, k, hnk⟩ := hq
  have hdvd : (q.den : ℤ) ∣ (10 : ℤ) ^ k := by
    have hq2 : q = Rat.divInt n ((10 : ℤ) ^ k) := by
      rw [Rat.divInt_eq_div, hnk]
      push_cast
      ring
    rw [hq2]
    exact Rat.den_dvd n ((10 : ℤ) ^ k)
  have hdvd2 : q.den ∣ 10 ^ k := by
    have h10 : ((10 : ℤ) ^ k) = ((10 ^ k : ℕ) : ℤ) := by push_cast; ring
    rw [h10] at hdvd
    exact_mod_cast hdvd
  obtain ⟨a, b, hab⟩ := eq_two_five_pow_of_dvd_pow_ten k q.den q.den_nz hdvd2
  rw [hab, multiplic_two_of_shape, multiplic_five_of_shape]

/-! ## Lemmas: `String(number)` round-trips through `parseFloat` -/

theorem fracChars_length (k r : ℕ) (hk : 1 ≤ k) (hr : r < 10 ^ k) :
    (fracChars k r).length = k := by
  unfold fracChars
  rw [List.length_append, List.length_replicate]
  have := natToChars_length r k hk hr
  omega

theorem fracChars_val (k r : ℕ) : digitsVal (fracChars k r) = r := by
  unfold fracChars
  rw [digitsVal_replicate_zero, digitsVal_natToChars]

theorem fracChars_digits (k r : ℕ) : ∀ c ∈ fracChars k r, c.isDigit = true := by
  intro c hc
  unfold fracChars at hc
  rcases List.mem_append.mp hc with h | h
  · rw [List.eq_of_mem_replicate h]; decide
  · exact natToChars_isDigit r c h

theorem fracChars_ne_nil (k r : ℕ) : fracChars k r ≠ [] := by
  unfold fracChars
  intro h
  rcases List.append_eq_nil.mp h with ⟨_, h2⟩
  exact natToChars_ne_nil r h2

/-- Printing a decimal rational and re-parsing it restores the value (the
JS idiom `parseFloat(String(x)) === x` for float `x`). -/
theorem parseFloat_ratChars (q : ℚ) (hq : DecimalRat q) :
    parseFloatChars (ratChars q) = some q := by
  have hshape := den_shape_of_decimalRat q hq
  have hdvd : q.den ∣ 10 ^ (max (multiplic 2 q.den) (multiplic 5 q.den)) := by
    have h2 : (2 : ℕ) ^ multiplic 2 q.den ∣ 2 ^ (max (multiplic 2 q.den) (multiplic 5 q.den)) :=
      pow_dvd_pow 2 (le_max_left _ _)
    have h5 : (5 : ℕ) ^ multiplic 5 q.den ∣ 5 ^ (max (multiplic 2 q.den) (multiplic 5 q.den)) :=
      pow_dvd_pow 5 (le_max_right _ _)
    calc q.den = 2 ^ multiplic 2 q.den * 5 ^ multiplic 5 q.den := hshape
    _ ∣ 2 ^ (max (multiplic 2 q.den) (multiplic 5 q.den)) *
        5 ^ (max (multiplic 2 q.den) (multiplic 5 q.den)) := mul_dvd_mul h2 h5
    _ = 10 ^ (max (multiplic 2 q.den) (multiplic 5 q.den)) := by
        rw [← mul_pow]
        norm_num
  set k := max (multiplic 2 q.den) (multiplic 5 q.den) with hk
  set N := q.num.natAbs with hN
  set m := N * (10 ^ k / q.den) with hm
  have hden_pos : 0 < q.den := q.pos
  have hmden : m * q.den = N * 10 ^ k := by
    rw [hm, mul_assoc, Nat.div_mul_cancel hdvd]
  have hval : (m : ℚ) / 10 ^ k = (N : ℚ) / (q.den : ℚ) := by
    rw [div_eq_div_iff (by positivity) (by positivity)]
    exact_mod_cast hmden
  have habs : (N : ℚ) = |(q.num : ℚ)| := by
    rw [hN, Int.cast_natAbs, Int.cast_abs]
  have hqq : ((q.num : ℚ)) / (q.den : ℚ) = q := Rat.num_div_den q
  have hsgn : ∀ x : ℚ, (x = |(q.num : ℚ)| / q.den) →
      (if q.num < 0 then (-1 : ℚ) else 1) * x = q := by
    intro x hx
    subst hx
    rcases lt_or_ge q.num 0 with hneg | hpos
    · rw [if_pos hneg, abs_of_neg (by exact_mod_cast hneg : ((q.num : ℚ) < 0))]
      have hr : (-1 : ℚ) * (-(q.num : ℚ) / q.den) = (q.num : ℚ) / q.den := by ring
      rw [hr, hqq]
    · rw [if_neg (not_lt.mpr hpos),
        abs_of_nonneg (by exact_mod_cast hpos : ((0 : ℚ) ≤ (q.num : ℚ)))]
      rw [one_mul, hqq]
  have hout : ratChars q = (if q.num < 0 then ['-'] else []) ++
      (if k = 0 then natToChars m
       else natToChars (m / 10 ^ k) ++ '.' :: fracChars k (m % 10 ^ k)) := by
    simp only [ratChars, ratCoreChars]
    rw [if_pos hshape]
    rcases lt_or_ge q.num 0 with hneg | hpos
    · rw [if_pos hneg, if_pos hneg]
      rfl
    · rw [if_neg (not_lt.mpr hpos), if_neg (not_lt.mpr hpos)]
      rfl
  by_cases hk0 : k = 0
  · -- integer rendering: the denominator is 1
    have hden1 : q.den = 1 := by
      have hd := hdvd
      rw [hk0] at hd
      simpa using hd
    have hmN : m = N := by
      rw [hm, hk0, hden1]
      simp
    rw [hout, if_pos hk0, hmN]
    have hshp := parseFloatChars_shape (decide (q.num < 0)) (natToChars N) []
      (natToChars_isDigit N) (natToChars_ne_nil N) (fun c hc => absurd hc (List.not_mem_nil c))
    simp only [decide_eq_true_eq, List.isEmpty_nil, if_true, List.append_nil] at hshp
    rw [hshp]
    congr 1
    apply hsgn
    rw [digitsVal_natToChars]
    simp only [show digitsVal [] = 0 from rfl, List.length_nil, Nat.cast_zero, pow_zero,
      zero_div, add_zero]
    rw [habs, hden1]
    simp
  · have hk1 : 1 ≤ k := by omega
    have hmod : m % 10 ^ k < 10 ^ k := Nat.mod_lt _ (by positivity)
    have hF := fracChars_ne_nil k (m % 10 ^ k)
    rw [hout, if_neg hk0]
    have hshp := parseFloatChars_shape (decide (q.num < 0)) (natToChars (m / 10 ^ k))
      (fracChars k (m % 10 ^ k)) (natToChars_isDigit _) (natToChars_ne_nil _)
      (fracChars_digits _ _)
    simp only [decide_eq_true_eq] at hshp
    have hFe : (fracChars k (m % 10 ^ k)).isEmpty = false := by
      cases hFc : fracChars k (m % 10 ^ k) with
      | nil => exact absurd hFc hF
      | cons a l => rfl
    rw [hFe] at hshp
    simp only [Bool.false_eq_true, if_false] at hshp
    rw [← List.append_assoc, hshp]
    congr 1
    apply hsgn
    rw [digitsVal_natToChars, fracChars_val, fracChars_length k _ hk1 hmod]
    have h10 : ((10 : ℚ) ^ k) ≠ 0 := by positivity
    have hmant : ((m / 10 ^ k : ℕ) : ℚ) + ((m % 10 ^ k : ℕ) : ℚ) / 10 ^ k
        = (m : ℚ) / 10 ^ k := by
      rw [eq_div_iff h10, add_mul, div_mul_cancel₀ _ h10]
      have hnat : (m / 10 ^ k) * 10 ^ k + m % 10 ^ k = m := by
        rw [Nat.mul_comm (m / 10 ^ k) (10 ^ k)]
        exact Nat.div_add_mod m (10 ^ k)
      exact_mod_cast hnat
    rw [hmant, hval, habs]

/-! ## Lemmas: character inventory of printed numbers -/

theorem ratCoreChars_mem (q : ℚ) : ∀ c ∈ ratCoreChars q, c.isDigit = true ∨ c = '.' := by
  intro c hc
  simp only [ratCoreChars] at hc
  split at hc
  · split at hc
    · exact Or.inl (natToChars_isDigit _ c hc)
    · rcases List.mem_append.mp hc with h | h
      · exact Or.inl (natToChars_isDigit _ c h)
      · rcases List.mem_cons.mp h with rfl | h2
        · exact Or.inr rfl
        · exact Or.inl (fracChars_digits _ _ c h2)
  · exact Or.inl (natToChars_isDigit _ c hc)

theorem ratChars_mem (q : ℚ) : ∀ c ∈ ratChars q, c.isDigit = true ∨ c = '.' ∨ c = '-' := by
  intro c hc
  simp only [ratChars] at hc
  split at hc
  · rcases List.mem_cons.mp hc with rfl | h2
    · exact Or.inr (Or.inr rfl)
    · rcases ratCoreChars_mem q c h2 with h | h
      · exact Or.inl h
      · exact Or.inr (Or.inl h)
  · rcases ratCoreChars_mem q c hc with h | h
    · exact Or.inl h
    · exact Or.inr (Or.inl h)

theorem digit_ne_special (c : Char) (h : c.isDigit = true) :
    c ≠ ',' ∧ c ≠ '₹' ∧ c ≠ ' ' ∧ c ≠ '-' := by
  have hn : 48 ≤ c.toNat ∧ c.toNat ≤ 57 := by
    simp only [Char.isDigit, decide_eq_true_eq, Bool.and_eq_true] at h
    exact ⟨h.1, h.2⟩
  refine ⟨?_, ?_, ?_, ?_⟩ <;> (intro hc; subst hc; revert hn; decide)

theorem ratChars_no_comma (q : ℚ) : ∀ c ∈ ratChars q, c ≠ ',' := by
  intro c hc
  rcases ratChars_mem q c hc with h | h | h
  · exact (digit_ne_special c h).1
  · subst h; decide
  · subst h; decide

theorem ratChars_no_space (q : ℚ) : ' ' ∉ ratChars q := by
  intro hc
  rcases ratChars_mem q ' ' hc with h | h | h <;> revert h <;> decide

theorem stripCommas_mk_of_no_comma (l : List Char) (h : ∀ c ∈ l, c ≠ ',') :
    stripCommas (String.mk l) = String.mk l := by
  unfold stripCommas
  congr 1
  exact List.filter_eq_self.mpr (fun c hc => by
    simp only [Bool.not_eq_true']
    exact decide_eq_false (h c hc))

/-- The printed form of a number is never mistaken for a date. -/
theorem parseDateChars_ratChars (q : ℚ) : parseDateChars (ratChars q) = none := by
  have hsp : ' ' ∉ ratChars q := ratChars_no_space q
  have hsp1 : splitOnChar ' ' (ratChars q) = [ratChars q] :=
    splitOnChar_of_not_mem ' ' _ hsp
  have hcore_no_dash : ∀ c ∈ ratCoreChars q, c ≠ '-' := by
    intro c hc hdash
    rcases ratCoreChars_mem q c hc with h | h
    · subst hdash; revert h; decide
    · subst hdash; revert h; decide
  have hdash : splitOnChar '-' (ratChars q) = [ratChars q] ∨
      splitOnChar '-' (ratChars q) = [[], ratCoreChars q] := by
    simp only [ratChars]
    split
    · right
      rw [show ('-' :: ratCoreChars q) = ([] ++ '-' :: ratCoreChars q) from rfl,
        splitOnChar_append '-' [] (ratCoreChars q) (by simp),
        splitOnChar_of_not_mem '-' _ (fun hmem => hcore_no_dash '-' hmem rfl)]
    · left
      exact splitOnChar_of_not_mem '-' _ (fun hmem => hcore_no_dash '-' hmem rfl)
  unfold parseDateChars
  rw [hsp1]
  rcases hdash with h | h <;> rw [h]

/-! ## Lemmas: dates -/

theorem natToChars_no_space (n : ℕ) : ' ' ∉ natToChars n := by
  intro h
  have hd := natToChars_isDigit n ' ' h
  revert hd
  decide

theorem abbrevChars_no_space (m : ℕ) (h1 : 1 ≤ m) (h2 : m ≤ 12) : ' ' ∉ abbrevChars m := by
  interval_cases m <;> decide

theorem parseMonth_abbrev (m : ℕ) (h1 : 1 ≤ m) (h2 : m ≤ 12) :
    parseMonthChars (abbrevChars m) = some m := by
  interval_cases m <;> rfl

theorem pad2_spec (d : ℕ) (h1 : 1 ≤ d) (h2 : d ≤ 31) :
    allDigits (pad2Chars d) = true ∧ pad2Chars d ≠ [] ∧ (pad2Chars d).length ≤ 2 ∧
      digitsVal (pad2Chars d) = d ∧ ' ' ∉ pad2Chars d := by
  unfold pad2Chars
  by_cases hd : d < 10
  · rw [if_pos hd]
    refine ⟨?_, by simp, ?_, ?_, ?_⟩
    · rw [allDigits, List.all_eq_true]
      intro c hc
      rcases List.mem_cons.mp hc with rfl | h
      · decide
      · exact natToChars_isDigit d c h
    · have := natToChars_length d 1 (by omega) (by omega)
      simp only [List.length_cons]
      omega
    · have : ('0' :: natToChars d) = List.replicate 1 '0' ++ natToChars d := rfl
      rw [this, digitsVal_replicate_zero, digitsVal_natToChars]
    · intro h
      rcases List.mem_cons.mp h with hc | hc
      · exact absurd hc.symm (by decide)
      · exact natToChars_no_space d hc
  · rw [if_neg hd]
    refine ⟨?_, natToChars_ne_nil d, ?_, digitsVal_natToChars d, natToChars_no_space d⟩
    · rw [allDigits, List.all_eq_true]
      exact natToChars_isDigit d
    · exact natToChars_length d 2 (by omega) (by omega)

theorem splitOnChar_formatChars (d : SimpleDate) (h : WFDate d) :
    splitOnChar ' ' (formatChars d) =
      [pad2Chars d.day, abbrevChars d.month, natToChars d.year] := by
  obtain ⟨hd1, hd2, hm1, hm2⟩ := h
  unfold formatChars
  rw [splitOnChar_append ' ' _ _ (pad2_spec d.day hd1 hd2).2.2.2.2,
    splitOnChar_append ' ' _ _ (abbrevChars_no_space d.month hm1 hm2),
    splitOnChar_of_not_mem ' ' _ (natToChars_no_space d.year)]

/-- Re-parsing the canonical en-IN rendering restores the date. -/
theorem parseDateChars_format (d : SimpleDate) (h : WFDate d) :
    parseDateChars (formatChars d) = some d := by
  obtain ⟨hd1, hd2, hm1, hm2⟩ := h
  obtain ⟨hdig, hne, hlen, hval, _⟩ := pad2_spec d.day hd1 hd2
  unfold parseDateChars
  rw [splitOnChar_formatChars d ⟨hd1, hd2, hm1, hm2⟩]
  simp only [parseMonth_abbrev d.month hm1 hm2]
  rw [if_pos]
  · rw [hval, digitsVal_natToChars]
  · refine ⟨⟨hdig, hne, hlen, ?_, ?_⟩, ?_, natToChars_ne_nil d.year⟩
    · rw [hval]; omega
    · rw [hval]; omega
    · rw [allDigits, List.all_eq_true]
      exact natToChars_isDigit d.year

theorem parseMonthChars_range (l : List Char) (m : ℕ) (h : parseMonthChars l = some m) :
    1 ≤ m ∧ m ≤ 12 := by
  unfold parseMonthChars at h
  cases hf : List.find? (fun p => p.1 == l) monthAbbrevs with
  | none => rw [hf] at h; exact absurd h (by simp)
  | some p =>
    rw [hf] at h
    simp only [Option.map_some', Option.some.injEq] at h
    subst h
    have hmem := List.mem_of_find?_eq_some hf
    have hall : ∀ p ∈ monthAbbrevs, 1 ≤ p.2 ∧ p.2 ≤ 12 := by decide
    exact hall p hmem

theorem parseDateChars_WF (l : List Char) (d : SimpleDate) (h : parseDateChars l = some d) :
    WFDate d := by
  unfold parseDateChars at h
  split at h
  · rename_i dS mS hsplit
    cases hm : parseMonthChars mS with
    | none => rw [hm] at h; exact absurd h (by simp)
    | some m =>
      rw [hm] at h
      have h2 : (if allDigits dS = true ∧ dS ≠ [] ∧ dS.length ≤ 2 ∧
          1 ≤ digitsVal dS ∧ digitsVal dS ≤ 31 then
          some (SimpleDate.mk 2001 m (digitsVal dS)) else none) = some d := h
      by_cases hcond : allDigits dS = true ∧ dS ≠ [] ∧ dS.length ≤ 2 ∧
          1 ≤ digitsVal dS ∧ digitsVal dS ≤ 31
      · rw [if_pos hcond] at h2
        obtain ⟨m1, m2⟩ := parseMonthChars_range mS m hm
        cases h2
        exact ⟨hcond.2.2.2.1, hcond.2.2.2.2, m1, m2⟩
      · rw [if_neg hcond] at h2
        exact absurd h2 (by simp)
  · rename_i dS mS yS hsplit
    cases hm : parseMonthChars mS with
    | none => rw [hm] at h; exact absurd h (by simp)
    | some m =>
      rw [hm] at h
      have h2 : (if (allDigits dS = true ∧ dS ≠ [] ∧ dS.length ≤ 2 ∧
          1 ≤ digitsVal dS ∧ digitsVal dS ≤ 31) ∧ allDigits yS = true ∧ yS ≠ [] then
          some (SimpleDate.mk (digitsVal yS) m (digitsVal dS)) else none) = some d := h
      by_cases hcond : (allDigits dS = true ∧ dS ≠ [] ∧ dS.length ≤ 2 ∧
          1 ≤ digitsVal dS ∧ digitsVal dS ≤ 31) ∧ allDigits yS = true ∧ yS ≠ []
      · rw [if_pos hcond] at h2
        obtain ⟨m1, m2⟩ := parseMonthChars_range mS m hm
        cases h2
        exact ⟨hcond.1.2.2.2.1, hcond.1.2.2.2.2, m1, m2⟩
      · rw [if_neg hcond] at h2
        exact absurd h2 (by simp)
  · split at h
    · rename_i yS mS dS hsplit
      by_cases hcond : (allDigits yS = true ∧ yS ≠ []) ∧
          (allDigits mS = true ∧ mS ≠ [] ∧ 1 ≤ digitsVal mS ∧ digitsVal mS ≤ 12) ∧
          allDigits dS = true ∧ dS ≠ [] ∧ 1 ≤ digitsVal dS ∧ digitsVal dS ≤ 31
      · rw [if_pos hcond] at h
        cases h
        exact ⟨hcond.2.2.2.2.1, hcond.2.2.2.2.2, hcond.2.1.2.2.1, hcond.2.1.2.2.2⟩
      · rw [if_neg hcond] at h
        exact absurd h (by simp)
    · exact absurd h (by simp)

theorem jsNewDate_WF (v : JSVal) (d : SimpleDate) (h : jsNewDate v = some d) : WFDate d := by
  cases v with
  | vStr s => exact parseDateChars_WF s.data d h
  | vNum q =>
    have h2 : (if 0 ≤ q ∧ q < 86400000 then some (SimpleDate.mk 1970 1 1) else none)
        = some d := h
    by_cases hc : 0 ≤ q ∧ q < 86400000
    · rw [if_pos hc] at h2
      cases h2
      exact ⟨by decide, by decide, by decide, by decide⟩
    · rw [if_neg hc] at h2
      exact absurd h2 (by simp)
  | vBool b =>
    have h2 : some (SimpleDate.mk 1970 1 1) = some d := h
    cases h2
    exact ⟨by decide, by decide, by decide, by decide⟩
  | vNull =>
    have h2 : some (SimpleDate.mk 1970 1 1) = some d := h
    cases h2
    exact ⟨by decide, by decide, by decide, by decide⟩

theorem fixYear_WF (cy : ℕ) (d : SimpleDate) (h : WFDate d) : WFDate (fixYear cy d) := by
  unfold fixYear
  split
  · exact ⟨h.1, h.2.1, h.2.2.1, h.2.2.2⟩
  · exact h

theorem fixYear_idem (cy : ℕ) (d : SimpleDate) :
    fixYear cy (fixYear cy d) = fixYear cy d := by
  unfold fixYear
  split
  · simp only
    split <;> rfl
  · rfl

/-- Re-normalizing an already-normalized date text is a no-op (parse failures
pass the text through; successes re-render to the same canonical string). -/
theorem normalizeDateStr_stable (cy : ℕ) (v : JSVal) :
    normalizeDateStr cy (JSVal.vStr (normalizeDateStr cy v)) = normalizeDateStr cy v := by
  unfold normalizeDateStr
  cases hv : jsNewDate v with
  | some d =>
    have hwf : WFDate (fixYear cy d) := fixYear_WF cy d (jsNewDate_WF v d hv)
    have hp : jsNewDate (JSVal.vStr (formatDateEnIN (fixYear cy d))) = some (fixYear cy d) := by
      show parseDateChars (formatDateEnIN (fixYear cy d)).data = _
      unfold formatDateEnIN
      exact parseDateChars_format _ hwf
    rw [hp]
    simp only [fixYear_idem]
  | none =>
    have hnone : jsNewDate (JSVal.vStr (jsString v)) = none := by
      cases v with
      | vStr s => exact hv
      | vNum q =>
        show parseDateChars (String.mk (ratChars q)).data = none
        exact parseDateChars_ratChars q
      | vBool b => cases hv
      | vNull => cases hv
    rw [hnone]
    rfl

/-! ## Lemmas: the per-row mapping and its invariants -/

theorem firstTruthy_cases (raw : RawRecord) (ks : List String) (dflt : JSVal) :
    firstTruthy raw ks dflt = dflt ∨ (firstTruthy raw ks dflt).truthy = true := by
  induction ks with
  | nil => exact Or.inl rfl
  | cons k ks ih =>
    unfold firstTruthy
    by_cases h : (getJS raw k).truthy = true
    · rw [if_pos h]
      exact Or.inr h
    · rw [if_neg h]
      exact ih

theorem mapRaw_ok_elim (cy : ℕ) (raw : RawRecord) (e : Expense)
    (h : mapRaw cy raw = Except.ok e) :
    ∃ t, resolveType raw = JSVal.vStr t ∧ e = mkExpense cy raw t := by
  unfold mapRaw at h
  cases ht : resolveType raw with
  | vStr t =>
    rw [ht] at h
    simp only [Except.ok.injEq] at h
    exact ⟨t, rfl, h.symm⟩
  | vNum q => rw [ht] at h; exact absurd h (by simp)
  | vBool b => rw [ht] at h; exact absurd h (by simp)
  | vNull => rw [ht] at h; exact absurd h (by simp)

theorem mapRaw_ok_of_vStr (cy : ℕ) (raw : RawRecord) (t : String)
    (h : resolveType raw = JSVal.vStr t) :
    mapRaw cy raw = Except.ok (mkExpense cy raw t) := by
  unfold mapRaw
  rw [h]

theorem numOrUndef_ne_some_zero (o : Option ℚ) : numOrUndef o ≠ some 0 := by
  cases o with
  | none => simp [numOrUndef]
  | some q =>
    show (if q = 0 then none else some q) ≠ some 0
    by_cases h : q = 0
    · rw [if_pos h]; simp
    · rw [if_neg h]; simpa using h

theorem numOrUndef_decimal (o : Option ℚ) (hd : ∀ q, o = some q → DecimalRat q) :
    ∀ q, numOrUndef o = some q → DecimalRat q := by
  intro q hq
  cases o with
  | none => exact absurd hq (by simp [numOrUndef])
  | some r =>
    have hq2 : (if r = 0 then none else some r) = some q := hq
    by_cases h : r = 0
    · rw [if_pos h] at hq2; exact absurd hq2 (by simp)
    · rw [if_neg h] at hq2
      simp only [Option.some.injEq] at hq2
      subst hq2
      exact hd _ rfl

theorem mkCategory_cases (raw : RawRecord) (t : String) :
    mkCategory raw t = "Fuel" ∨
      (mkCategory raw t = t ∧ hasSub (toLowerJS t) "fuel" = false) := by
  unfold mkCategory
  by_cases hforce : !(getJS raw "comment").truthy
      ∧ (JSVal.vStr t = JSVal.vStr "Other" ∨ (JSVal.vStr t).truthy = false)
  · rw [if_pos hforce]
    exact Or.inl rfl
  · rw [if_neg hforce]
    by_cases hfuel : hasSub (toLowerJS t) "fuel" = true
    · rw [if_pos hfuel]
      exact Or.inl rfl
    · rw [if_neg hfuel]
      exact Or.inr ⟨rfl, by simpa using hfuel⟩

theorem resolveType_vStr_ne_empty (raw : RawRecord) (t : String)
    (h : resolveType raw = JSVal.vStr t) : t ≠ "" := by
  rcases firstTruthy_cases raw ["comment", "type", "Category", "category"] (JSVal.vStr "Other")
    with hd | htr
  · rw [resolveType] at h
    rw [hd] at h
    cases h
    decide
  · rw [resolveType] at h
    rw [h] at htr
    intro ht
    subst ht
    revert htr
    decide

/-- Every record the per-row mapping produces satisfies the pipeline
invariants. -/
theorem mapRaw_inv (cy : ℕ) (raw : RawRecord) (e : Expense)
    (h : mapRaw cy raw = Except.ok e) : ExpInv cy e := by
  obtain ⟨t, ht, rfl⟩ := mapRaw_ok_elim cy raw e h
  have htne : t ≠ "" := resolveType_vStr_ne_empty raw t ht
  unfold ExpInv
  refine ⟨?_, ?_, ?_, ?_, ?_, ?_, rfl, ?_⟩
  · exact normalizeDateStr_stable cy (resolveDate raw)
  · show mkCategory raw t ≠ ""
    rcases mkCategory_cases raw t with hc | ⟨hc, _⟩
    · rw [hc]; decide
    · rw [hc]; exact htne
  · show mkCategory raw t = "Fuel" ∨ hasSub (toLowerJS (mkCategory raw t)) "fuel" = false
    rcases mkCategory_cases raw t with hc | ⟨hc, hns⟩
    · exact Or.inl hc
    · rw [hc]; exact Or.inr hns
  · show DecimalRat ((parseFloatJS (stripCommas (jsString (resolveAmount raw)))).getD 0)
    cases hp : parseFloatJS (stripCommas (jsString (resolveAmount raw))) with
    | none => exact decimalRat_zero
    | some q => exact decimalRat_of_parseFloat _ q hp
  · exact numOrUndef_ne_some_zero _
  · exact numOrUndef_ne_some_zero _
  · exact numOrUndef_decimal _ (fun q hq => decimalRat_of_parseFloat _ q hq)

/-! ## Lemmas: the efficiency scan matches its specification -/

theorem effStep_eq_spec (s : Option ℚ) (e : Expense)
    (h1 : e.Odometer ≠ some 0) (h2 : e.Volume ≠ some 0) :
    effStep s e = effStepSpec s e := by
  have ho : numTruthy e.Odometer = e.Odometer.isSome := by
    cases hoo : e.Odometer with
    | none => rfl
    | some q =>
      have : q ≠ 0 := fun h0 => h1 (by rw [hoo, h0])
      simp [numTruthy, this]
  have hv : numTruthy e.Volume = e.Volume.isSome := by
    cases hvv : e.Volume with
    | none => rfl
    | some q =>
      have : q ≠ 0 := fun h0 => h2 (by rw [hvv, h0])
      simp [numTruthy, this]
  unfold effStep effStepSpec
  rw [ho, hv]

theorem applyEfficiency_eq_spec (s : Option ℚ) (es : List Expense)
    (h : ∀ e ∈ es, e.Odometer ≠ some 0 ∧ e.Volume ≠ some 0) :
    applyEfficiency s es = applyEfficiencySpec s es := by
  induction es generalizing s with
  | nil => rfl
  | cons e rest ih =>
    obtain ⟨h1, h2⟩ := h e (by simp)
    show (effStep s e).1 :: applyEfficiency (effStep s e).2 rest
        = (effStepSpec s e).1 :: applyEfficiencySpec (effStepSpec s e).2 rest
    rw [effStep_eq_spec s e h1 h2, ih _ (fun e' he' => h e' (by simp [he']))]

theorem effStep_efficiency_pos (s : Option ℚ) (e : Expense) (hin : e.Efficiency = none) :
    ∀ v, (effStep s e).1.Efficiency = some v → 0 < v := by
  intro v hv
  unfold effStep at hv
  split at hv
  · rename_i hq
    cases s with
    | none => simp only at hv; rw [hin] at hv; cases hv
    | some prev =>
      simp only at hv
      split at hv
      · rename_i hdist
        simp only at hv
        injection hv with hv
        subst hv
        have hvol : 0 < e.Volume.getD 0 := hq.2.2
        exact div_pos hdist hvol
      · rw [hin] at hv; cases hv
  · rw [hin] at hv; cases hv

theorem applyEfficiency_pos (s : Option ℚ) (es : List Expense)
    (h : ∀ e ∈ es, e.Efficiency = none) :
    ∀ e ∈ applyEfficiency s es, ∀ v, e.Efficiency = some v → 0 < v := by
  induction es generalizing s with
  | nil => intro e he; cases he
  | cons e0 rest ih =>
    intro e he v hv
    have he3 : e ∈ (effStep s e0).1 :: applyEfficiency (effStep s e0).2 rest := he
    rcases List.mem_cons.mp he3 with rfl | he2
    · exact effStep_efficiency_pos s e0 (h e0 (by simp)) v hv
    · exact ih _ (fun e' he' => h e' (by simp [he'])) e he2 v hv

/-! ## More pipeline plumbing -/

theorem sortedForEff_ok_elim (cy : ℕ) (raws : List RawRecord) (es : List Expense)
    (h : sortedForEff cy raws = Except.ok es) :
    ∃ base, mapRawAll cy (raws.filter (fun r => !(List.isEmpty r))) = Except.ok base ∧
      es = sortJS effLe base := by
  unfold sortedForEff baseData at h
  cases hb : mapRawAll cy (raws.filter (fun r => !(List.isEmpty r))) with
  | error msg => rw [hb] at h; simp [Except.map] at h
  | ok base =>
    rw [hb] at h
    simp only [Except.map, Except.ok.injEq] at h
    exact ⟨base, rfl, h.symm⟩

theorem normalizeData_ok_intro (cy : ℕ) (raws : List RawRecord) (base : List Expense)
    (h : mapRawAll cy (raws.filter (fun r => !(List.isEmpty r))) = Except.ok base) :
    normalizeData cy raws = Except.ok (applyEfficiency none (sortJS effLe base)) := by
  unfold normalizeData sortedForEff baseData
  rw [h]
  rfl

theorem mapRawAll_ok_forall (cy : ℕ) (l : List RawRecord) (out : List Expense)
    (h : mapRawAll cy l = Except.ok out) : ∀ r ∈ l, ∃ e, mapRaw cy r = Except.ok e := by
  have h2 := (mapRawAll_iff_forall2 cy l out).mp h
  clear h
  induction h2 with
  | nil => intro r hr; cases hr
  | cons hre hall ih =>
    intro r hr
    rcases List.mem_cons.mp hr with rfl | hr2
    · exact ⟨_, hre⟩
    · exact ih r hr2

/-! ## The claims -/

/-- C1: For every input sequence processed by the efficiency derivation in
`normalizeData` (the chronologically sorted, reconciled records), the
stateful scan behaves exactly as specified: an entry qualifies as a fuel
point exactly when it has a present odometer reading and a present, strictly
positive volume; a qualifying entry receives
`efficiency = (odometer - carried) / volume` exactly when a carried odometer
exists and that distance is strictly positive (absent otherwise, never zero
or negative — the second conjunct); after every qualifying entry the carried
odometer becomes that entry's reading; non-qualifying entries receive
nothing and change nothing.  Stated as: on such sequences the code's scan
(`applyEfficiency`) coincides with the spec-modelled scan
(`applyEfficiencySpec`), and every efficiency it emits is positive. -/
theorem c1_efficiency_scan (cy : ℕ) (raws : List RawRecord) (es : List Expense)
    (h : sortedForEff cy raws = Except.ok es) :
    applyEfficiency none es = applyEfficiencySpec none es ∧
      (∀ e ∈ applyEfficiency none es, ∀ v, e.Efficiency = some v → 0 < v) := by
  obtain ⟨base, hb, rfl⟩ := sortedForEff_ok_elim cy raws es h
  have hmem : ∀ e ∈ sortJS effLe base,
      e.Odometer ≠ some 0 ∧ e.Volume ≠ some 0 ∧ e.Efficiency = none := by
    intro e he
    have hb2 := (mem_sortJS_iff effLe base e).mp he
    obtain ⟨raw, _, hok⟩ := mapRawAll_mem cy _ base hb e hb2
    obtain ⟨_, _, _, _, h5, h6, h7, _⟩ := mapRaw_inv cy raw e hok
    exact ⟨h5, h6, h7⟩
  refine ⟨applyEfficiency_eq_spec none _ (fun e he => ⟨(hmem e he).1, (hmem e he).2.1⟩), ?_⟩
  exact applyEfficiency_pos none _ (fun e he => (hmem e he).2.2)

/-- Witness for C1 at the spec's two-refuel scenario (current year 2024):
the second entry gets efficiency (10300 − 10000) / 12 = 25. -/
theorem c1_efficiency_scan_witness :
    (applyEfficiency none sampleSorted = applyEfficiencySpec none sampleSorted ∧
      (∀ e ∈ applyEfficiency none sampleSorted, ∀ v, e.Efficiency = some v → 0 < v)) ∧
    (applyEfficiency none sampleSorted).map Expense.Efficiency = [none, some 25] :=
  ⟨c1_efficiency_scan 2024 [sampleRow1, sampleRow2] sampleSorted (by with_unfolding_all rfl),
    by with_unfolding_all rfl⟩

/-- C4: For every raw record whose resolved category text contains the
substring `"fuel"` in any letter casing, the output `Category` is exactly
the literal `"Fuel"`. -/
theorem c4_fuel_category (cy : ℕ) (raw : RawRecord) (e : Expense) (t : String)
    (hok : mapRaw cy raw = Except.ok e) (ht : resolveType raw = JSVal.vStr t)
    (hfuel : hasSub (toLowerJS t) "fuel" = true) : e.Category = "Fuel" := by
  obtain ⟨t2, ht2, rfl⟩ := mapRaw_ok_elim cy raw e hok
  rw [ht] at ht2
  cases ht2
  show mkCategory raw t = "Fuel"
  unfold mkCategory
  rw [if_pos hfuel]
  by_cases hforce : (!(getJS raw "comment").truthy) = true
      ∧ (JSVal.vStr t = JSVal.vStr "Other" ∨ (JSVal.vStr t).truthy = false)
  · rw [if_pos hforce]
  · rw [if_neg hforce]

/-- Witness for C4: a raw comment `"FUEL stop"` canonicalizes to `"Fuel"`. -/
theorem c4_fuel_category_witness :
    (mkExpense 2025 [("comment", JSVal.vStr "FUEL stop")] "FUEL stop").Category = "Fuel" :=
  c4_fuel_category 2025 [("comment", JSVal.vStr "FUEL stop")] _ "FUEL stop"
    (by rfl) (by rfl) (by rfl)

/-- C5: For every raw date string: a parse failure passes the string through
unchanged; a parse with year < 2010 is re-rendered with the year rewritten
to the current year; a parse with year ≥ 2010 is re-rendered at its parsed
year. -/
theorem c5_date_year_policy (cy : ℕ) (s : String) :
    (parseDateJS s = none → normalizeDateStr cy (JSVal.vStr s) = s) ∧
    (∀ d, parseDateJS s = some d → d.year < 2010 →
      normalizeDateStr cy (JSVal.vStr s) = formatDateEnIN (SimpleDate.mk cy d.month d.day)) ∧
    (∀ d, parseDateJS s = some d → 2010 ≤ d.year →
      normalizeDateStr cy (JSVal.vStr s) = formatDateEnIN d) := by
  refine ⟨?_, ?_, ?_⟩
  · intro h
    unfold normalizeDateStr
    show (match parseDateJS s with
      | none => jsString (JSVal.vStr s)
      | some d => formatDateEnIN (fixYear cy d)) = s
    rw [h]
    rfl
  · intro d hd hy
    unfold normalizeDateStr
    show (match parseDateJS s with
      | none => jsString (JSVal.vStr s)
      | some d => formatDateEnIN (fixYear cy d)) = _
    rw [hd]
    show formatDateEnIN (fixYear cy d) = _
    unfold fixYear
    rw [if_pos hy]
  · intro d hd hy
    unfold normalizeDateStr
    show (match parseDateJS s with
      | none => jsString (JSVal.vStr s)
      | some d => formatDateEnIN (fixYear cy d)) = _
    rw [hd]
    show formatDateEnIN (fixYear cy d) = _
    unfold fixYear
    rw [if_neg (not_lt.mpr hy)]

/-- Witness for C5 (current year 2025): `"banana"` passes through; the
year-less `"15 Jan"` (host-parsed with placeholder year 2001 < 2010) becomes
`"15 Jan 2025"`; `"15 Jan 2024"` keeps its year. -/
theorem c5_date_year_policy_witness :
    normalizeDateStr 2025 (JSVal.vStr "banana") = "banana" ∧
    normalizeDateStr 2025 (JSVal.vStr "15 Jan") = "15 Jan 2025" ∧
    normalizeDateStr 2025 (JSVal.vStr "15 Jan 2024") = "15 Jan 2024" := by
  refine ⟨(c5_date_year_policy 2025 "banana").1 (by rfl), ?_, ?_⟩
  · have h := (c5_date_year_policy 2025 "15 Jan").2.1 (SimpleDate.mk 2001 1 15)
      (by rfl) (by norm_num)
    rw [h]
    rfl
  · have h := (c5_date_year_policy 2025 "15 Jan 2024").2.2 (SimpleDate.mk 2024 1 15)
      (by rfl) (by norm_num)
    rw [h]
    rfl

/-- C6: A successful `normalizeData` run yields exactly one canonical record
per raw row with at least one key (rows with zero keys are dropped), and
this output length is invariant under any permutation of the input. -/
theorem c6_length_invariant (cy : ℕ) (raws : List RawRecord) (out : List Expense)
    (h : normalizeData cy raws = Except.ok out) :
    out.length = (raws.filter (fun r => !(List.isEmpty r))).length ∧
      ∀ raws2 : List RawRecord, raws.Perm raws2 →
        ∃ out2, normalizeData cy raws2 = Except.ok out2 ∧ out2.length = out.length := by
  obtain ⟨base, hb, rfl⟩ := normalizeData_ok_elim cy raws out h
  have hlen : (applyEfficiency none (sortJS effLe base)).length
      = (raws.filter (fun r => !(List.isEmpty r))).length := by
    rw [applyEfficiency_length, sortJS_length, mapRawAll_length cy _ base hb]
    rfl
  refine ⟨hlen, ?_⟩
  intro raws2 hp
  have hpf : (raws.filter (fun r => !(List.isEmpty r))).Perm
      (raws2.filter (fun r => !(List.isEmpty r))) := hp.filter _
  obtain ⟨base2, hb2⟩ := mapRawAll_ok_of_forall cy _
    (fun r hr => mapRawAll_ok_forall cy _ base hb r (hpf.mem_iff.mpr hr))
  refine ⟨applyEfficiency none (sortJS effLe base2), normalizeData_ok_intro cy raws2 base2 hb2, ?_⟩
  rw [applyEfficiency_length, sortJS_length, mapRawAll_length cy _ base2 hb2, hlen]
  exact hpf.length_eq.symm

/-- Witness for C6: one non-empty row plus one empty row normalize to a
single record. -/
theorem c6_length_invariant_witness :
    normalizeData 2025 sampleRows6 = Except.ok sampleOut6 ∧
      sampleOut6.length = (sampleRows6.filter (fun r => !(List.isEmpty r))).length :=
  ⟨by with_unfolding_all rfl,
    (c6_length_invariant 2025 sampleRows6 sampleOut6 (by with_unfolding_all rfl)).1⟩

/-! ## Lemmas: the re-encoded row of a canonical record (claim C3) -/

theorem truthy_vStr (s : String) (h : s ≠ "") : (JSVal.vStr s).truthy = true := by
  show (!s.isEmpty) = true
  cases hE : s.isEmpty
  · rfl
  · exact absurd ((String.isEmpty_iff s).mp hE) h

theorem vStr_of_truthy_false (s : String) (h : (JSVal.vStr s).truthy = false) : s = "" := by
  have h2 : (!s.isEmpty) = false := h
  rw [Bool.not_eq_false'] at h2
  exact (String.isEmpty_iff s).mp h2

theorem getJS_expenseToRaw_comment (e : Expense) :
    getJS (expenseToRaw e) "comment" = JSVal.vNull := by
  unfold getJS expenseToRaw
  cases e.Odometer <;> cases e.Volume <;> cases e.Rate <;> cases e.Efficiency <;> rfl

theorem getJS_expenseToRaw_type (e : Expense) :
    getJS (expenseToRaw e) "type" = JSVal.vNull := by
  unfold getJS expenseToRaw
  cases e.Odometer <;> cases e.Volume <;> cases e.Rate <;> cases e.Efficiency <;> rfl

theorem getJS_expenseToRaw_Category (e : Expense) :
    getJS (expenseToRaw e) "Category" = JSVal.vStr e.Category := by
  unfold getJS expenseToRaw
  cases e.Odometer <;> cases e.Volume <;> cases e.Rate <;> cases e.Efficiency <;> rfl

theorem getJS_expenseToRaw_date (e : Expense) :
    getJS (expenseToRaw e) "date" = JSVal.vNull := by
  unfold getJS expenseToRaw
  cases e.Odometer <;> cases e.Volume <;> cases e.Rate <;> cases e.Efficiency <;> rfl

theorem getJS_expenseToRaw_Date (e : Expense) :
    getJS (expenseToRaw e) "Date" = JSVal.vStr e.Date := by
  unfold getJS expenseToRaw
  cases e.Odometer <;> cases e.Volume <;> cases e.Rate <;> cases e.Efficiency <;> rfl

theorem getJS_expenseToRaw_Price (e : Expense) :
    getJS (expenseToRaw e) "Price" = JSVal.vNull := by
  unfold getJS expenseToRaw
  cases e.Odometer <;> cases e.Volume <;> cases e.Rate <;> cases e.Efficiency <;> rfl

theorem getJS_expenseToRaw_Amount (e : Expense) :
    getJS (expenseToRaw e) "Amount" = JSVal.vNum e.Amount := by
  unfold getJS expenseToRaw
  cases e.Odometer <;> cases e.Volume <;> cases e.Rate <;> cases e.Efficiency <;> rfl

theorem resolveType_expenseToRaw (e : Expense) (h : e.Category ≠ "") :
    resolveType (expenseToRaw e) = JSVal.vStr e.Category := by
  unfold resolveType
  simp only [firstTruthy, getJS_expenseToRaw_comment, getJS_expenseToRaw_type,
    getJS_expenseToRaw_Category]
  rw [truthy_vStr e.Category h]
  rfl

theorem resolveDate_expenseToRaw (e : Expense) :
    resolveDate (expenseToRaw e) = JSVal.vStr e.Date := by
  unfold resolveDate
  simp only [firstTruthy, getJS_expenseToRaw_date, getJS_expenseToRaw_Date]
  by_cases h : e.Date = ""
  · rw [h]; rfl
  · rw [truthy_vStr e.Date h]
    rfl

theorem resolveAmount_expenseToRaw (e : Expense) :
    resolveAmount (expenseToRaw e)
      = if e.Amount = 0 then JSVal.vStr "0" else JSVal.vNum e.Amount := by
  unfold resolveAmount
  simp only [firstTruthy, getJS_expenseToRaw_Price, getJS_expenseToRaw_Amount]
  by_cases h : e.Amount = 0
  · rw [if_pos h]
    have ht : (JSVal.vNum e.Amount).truthy = false := by
      show decide (e.Amount ≠ 0) = false
      simp [h]
    rw [ht]
    rfl
  · rw [if_neg h]
    have ht : (JSVal.vNum e.Amount).truthy = true := by
      show decide (e.Amount ≠ 0) = true
      simp [h]
    rw [ht]
    rfl

/-- Feeding a canonical record (satisfying the per-row invariants on its
`Date`, `Category` and `Amount`) back through the per-row mapping succeeds,
keeps `Date` and `Amount`, and rewrites `Category` by `amendCat` (an
`"Other"` category becomes `"Fuel"` because the re-encoded row has no
`comment` key). -/
theorem mapRaw_expenseToRaw (cy : ℕ) (e : Expense)
    (hdate : normalizeDateStr cy (JSVal.vStr e.Date) = e.Date)
    (hcatne : e.Category ≠ "")
    (hcat : e.Category = "Fuel" ∨ hasSub (toLowerJS e.Category) "fuel" = false)
    (hamt : DecimalRat e.Amount) :
    ∃ e2, mapRaw cy (expenseToRaw e) = Except.ok e2 ∧ projDCA e2 = projDCAAmended e := by
  have ht := resolveType_expenseToRaw e hcatne
  refine ⟨mkExpense cy (expenseToRaw e) e.Category, mapRaw_ok_of_vStr cy _ _ ht, ?_⟩
  unfold projDCA projDCAAmended
  simp only [Prod.mk.injEq]
  refine ⟨?_, ?_, ?_⟩
  · show normalizeDateStr cy (resolveDate (expenseToRaw e)) = e.Date
    rw [resolveDate_expenseToRaw]
    exact hdate
  · show mkCategory (expenseToRaw e) e.Category = amendCat e.Category
    unfold mkCategory amendCat
    rw [getJS_expenseToRaw_comment]
    by_cases hO : e.Category = "Other"
    · rw [if_pos ⟨by decide, Or.inl (by rw [hO])⟩, if_pos hO]
    · rw [if_neg ?hforce, if_neg hO]
      case hforce =>
        rintro ⟨-, hOr | hfalse⟩
        · exact hO (by injection hOr)
        · exact hcatne (vStr_of_truthy_false _ hfalse)
      rcases hcat with hF | hns
      · rw [hF]
        rw [if_pos (by decide)]
      · rw [if_neg (by rw [hns]; exact Bool.false_ne_true)]
  · show (parseFloatJS (stripCommas (jsString (resolveAmount (expenseToRaw e))))).getD 0
        = e.Amount
    rw [resolveAmount_expenseToRaw]
    by_cases h0 : e.Amount = 0
    · rw [if_pos h0, h0]
      with_unfolding_all rfl
    · rw [if_neg h0]
      show (parseFloatJS (stripCommas (String.mk (ratChars e.Amount)))).getD 0 = e.Amount
      rw [stripCommas_mk_of_no_comma _ (ratChars_no_comma e.Amount)]
      show (parseFloatChars (ratChars e.Amount)).getD 0 = e.Amount
      rw [parseFloat_ratChars e.Amount hamt]
      rfl

/-! ## Lemmas: the efficiency scan only touches `Efficiency` -/

theorem eraseEff_Date (e : Expense) : (eraseEff e).Date = e.Date := rfl

theorem eraseEff_Category (e : Expense) : (eraseEff e).Category = e.Category := rfl

theorem eraseEff_Amount (e : Expense) : (eraseEff e).Amount = e.Amount := rfl

theorem applyEfficiency_mem_eraseEff (s : Option ℚ) (es : List Expense) (e : Expense)
    (he : e ∈ applyEfficiency s es) : ∃ e0 ∈ es, eraseEff e0 = eraseEff e := by
  have h1 : eraseEff e ∈ (applyEfficiency s es).map eraseEff := List.mem_map_of_mem _ he
  rw [applyEfficiency_map_eraseEff] at h1
  obtain ⟨e0, he0, heq⟩ := List.mem_map.mp h1
  exact ⟨e0, he0, heq⟩

theorem projDCA_applyEfficiency (s : Option ℚ) (es : List Expense) :
    (applyEfficiency s es).map projDCA = es.map projDCA := by
  induction es generalizing s with
  | nil => rfl
  | cons e rest ih =>
    show projDCA (effStep s e).1 :: (applyEfficiency (effStep s e).2 rest).map projDCA = _
    rw [ih]
    have h1 : projDCA (effStep s e).1 = projDCA e :=
      calc projDCA (effStep s e).1 = projDCA (eraseEff (effStep s e).1) := rfl
        _ = projDCA (eraseEff e) := by rw [effStep_fst_eraseEff]
        _ = projDCA e := rfl
    rw [h1]
    rfl

theorem map_proj_of_forall2 (cy : ℕ) (es out2 : List Expense)
    (h : List.Forall₂ (fun r e2 => mapRaw cy r = Except.ok e2) (es.map expenseToRaw) out2)
    (hpt : ∀ e ∈ es, ∀ e2, mapRaw cy (expenseToRaw e) = Except.ok e2 →
      projDCA e2 = projDCAAmended e) :
    out2.map projDCA = es.map projDCAAmended := by
  induction es generalizing out2 with
  | nil => cases h; rfl
  | cons e es ih =>
    rw [List.map_cons] at h
    cases h with
    | cons h1 h2 =>
      rename_i e2 out2'
      simp only [List.map_cons]
      rw [hpt e (by simp) e2 h1,
        ih out2' h2 (fun e' he' e2' hok' => hpt e' (by simp [he']) e2' hok')]

/-! ## Lemmas: the comparators on records whose keys are defined -/

theorem effLe_char (a b : Expense) (da db : SimpleDate)
    (hda : parseDateJS a.Date = some da) (hdb : parseDateJS b.Date = some db) :
    (effLe a b = true) ↔ (timeValue da < timeValue db ∨
      (timeValue da = timeValue db ∧ a.Odometer.getD 0 ≤ b.Odometer.getD 0)) := by
  unfold effLe
  rw [hda, hdb]
  show (if timeValue da ≠ timeValue db then decide (timeValue da ≤ timeValue db)
      else decide (a.Odometer.getD 0 ≤ b.Odometer.getD 0)) = true ↔ _
  by_cases h : timeValue da = timeValue db
  · rw [if_neg (not_not_intro h)]
    simp only [decide_eq_true_eq]
    constructor
    · intro hle; exact Or.inr ⟨h, hle⟩
    · rintro (hlt | ⟨-, hle⟩)
      · exact absurd h (ne_of_lt hlt)
      · exact hle
  · rw [if_pos h]
    simp only [decide_eq_true_eq]
    constructor
    · intro hle; exact Or.inl (lt_of_le_of_ne hle h)
    · rintro (hlt | ⟨heq, -⟩)
      · exact le_of_lt hlt
      · exact absurd heq h

theorem effLe_total_parse (a b : Expense)
    (ha : (parseDateJS a.Date).isSome = true) (hb : (parseDateJS b.Date).isSome = true) :
    effLe a b = true ∨ effLe b a = true := by
  obtain ⟨da, hda⟩ := Option.isSome_iff_exists.mp ha
  obtain ⟨db, hdb⟩ := Option.isSome_iff_exists.mp hb
  rw [effLe_char a b da db hda hdb, effLe_char b a db da hdb hda]
  rcases lt_trichotomy (timeValue da) (timeValue db) with h | h | h
  · exact Or.inl (Or.inl h)
  · rcases le_total (a.Odometer.getD 0) (b.Odometer.getD 0) with ho | ho
    · exact Or.inl (Or.inr ⟨h, ho⟩)
    · exact Or.inr (Or.inr ⟨h.symm, ho⟩)
  · exact Or.inr (Or.inl h)

theorem effLe_trans_parse (a b c : Expense)
    (ha : (parseDateJS a.Date).isSome = true) (hb : (parseDateJS b.Date).isSome = true)
    (hc : (parseDateJS c.Date).isSome = true) :
    effLe a b = true → effLe b c = true → effLe a c = true := by
  obtain ⟨da, hda⟩ := Option.isSome_iff_exists.mp ha
  obtain ⟨db, hdb⟩ := Option.isSome_iff_exists.mp hb
  obtain ⟨dc, hdc⟩ := Option.isSome_iff_exists.mp hc
  rw [effLe_char a b da db hda hdb, effLe_char b c db dc hdb hdc,
    effLe_char a c da dc hda hdc]
  rintro (h1 | ⟨h1, o1⟩) (h2 | ⟨h2, o2⟩)
  · exact Or.inl (lt_trans h1 h2)
  · exact Or.inl (by rw [← h2]; exact h1)
  · exact Or.inl (by rw [h1]; exact h2)
  · exact Or.inr ⟨h1.trans h2, le_trans o1 o2⟩

theorem effLe_eraseEff (a b : Expense) : effLe (eraseEff a) (eraseEff b) = effLe a b := rfl

theorem pairwise_effLe_applyEfficiency (s : Option ℚ) (es : List Expense)
    (h : List.Pairwise (fun a b => effLe a b = true) es) :
    List.Pairwise (fun a b => effLe a b = true) (applyEfficiency s es) := by
  have h1 : List.Pairwise (fun a b => effLe a b = true)
      ((applyEfficiency s es).map eraseEff) := by
    rw [applyEfficiency_map_eraseEff]
    exact (List.pairwise_map).mpr (h.imp (fun hab => by rw [effLe_eraseEff]; exact hab))
  have h2 := (List.pairwise_map).mp h1
  exact h2.imp (fun hab => by rw [← effLe_eraseEff]; exact hab)

theorem displayLe_char (a b : Expense) (ka kb : ℤ)
    (hka : displayKey a = some ka) (hkb : displayKey b = some kb) :
    (displayLe a b = true) ↔ kb ≤ ka := by
  unfold displayLe
  rw [hka, hkb]
  show decide (kb ≤ ka) = true ↔ kb ≤ ka
  simp only [decide_eq_true_eq]

theorem displayLe_total_key (a b : Expense)
    (ha : (displayKey a).isSome = true) (hb : (displayKey b).isSome = true) :
    displayLe a b = true ∨ displayLe b a = true := by
  obtain ⟨ka, hka⟩ := Option.isSome_iff_exists.mp ha
  obtain ⟨kb, hkb⟩ := Option.isSome_iff_exists.mp hb
  rw [displayLe_char a b ka kb hka hkb, displayLe_char b a kb ka hkb hka]
  exact (le_total kb ka).imp id id

theorem displayLe_trans_key (a b c : Expense)
    (ha : (displayKey a).isSome = true) (hb : (displayKey b).isSome = true)
    (hc : (displayKey c).isSome = true) :
    displayLe a b = true → displayLe b c = true → displayLe a c = true := by
  obtain ⟨ka, hka⟩ := Option.isSome_iff_exists.mp ha
  obtain ⟨kb, hkb⟩ := Option.isSome_iff_exists.mp hb
  obtain ⟨kc, hkc⟩ := Option.isSome_iff_exists.mp hc
  rw [displayLe_char a b ka kb hka hkb, displayLe_char b c kb kc hkb hkc,
    displayLe_char a c ka kc hka hkc]
  exact fun h1 h2 => le_trans h2 h1

/-- C2 counterexample: the row `{type: "Other"}` supplies an explicit
category field set to `"Other"`, yet the code forces its category to
`"Fuel"` (the force rule only checks that `comment` is falsy, not that the
whole comment/type/Category family is absent). -/
theorem c2_force_fuel_counterexample :
    getJS rowTypeOther "type" = JSVal.vStr "Other" ∧
    mapRaw 2025 rowTypeOther = Except.ok outTypeOther :=
  ⟨rfl, by with_unfolding_all rfl⟩

/-- C2 (amended): for a record whose resolved category text `t` does not
contain `"fuel"` (case-insensitively), the output category is `"Fuel"`
exactly when the raw `comment` field is falsy and `t` is `"Other"` — whether
or not some other category field (`type`/`Category`/`category`) was
explicitly supplied. -/
theorem c2_force_fuel_rule (cy : ℕ) (raw : RawRecord) (e : Expense) (t : String)
    (hok : mapRaw cy raw = Except.ok e) (ht : resolveType raw = JSVal.vStr t)
    (hnf : hasSub (toLowerJS t) "fuel" = false) :
    e.Category = "Fuel" ↔ ((getJS raw "comment").truthy = false ∧ t = "Other") := by
  obtain ⟨t2, ht2, rfl⟩ := mapRaw_ok_elim cy raw e hok
  rw [ht] at ht2
  cases ht2
  have htne : t ≠ "" := resolveType_vStr_ne_empty raw t ht
  show mkCategory raw t = "Fuel" ↔ _
  unfold mkCategory
  by_cases hforce : (!(getJS raw "comment").truthy) = true
      ∧ (JSVal.vStr t = JSVal.vStr "Other" ∨ (JSVal.vStr t).truthy = false)
  · rw [if_pos hforce]
    constructor
    · intro _
      refine ⟨by simpa using hforce.1, ?_⟩
      rcases hforce.2 with h | h
      · exact JSVal.vStr.inj h
      · exact absurd (truthy_vStr t htne) (by simp [h])
    · intro _
      rfl
  · rw [if_neg hforce]
    rw [if_neg (fun hc => absurd hc (by rw [hnf]; exact Bool.false_ne_true))]
    constructor
    · intro htF
      rw [htF] at hnf
      exact absurd hnf (by decide)
    · rintro ⟨hcom, hOther⟩
      exact absurd ⟨by rw [hcom]; rfl, Or.inl (by rw [hOther])⟩ hforce

/-- Witness for C2's amended rule: `{type: "Service"}` has a falsy comment
but resolves to `"Service"`, so its category is not forced. -/
theorem c2_force_fuel_rule_witness :
    (mkExpense 2025 rowTypeService "Service").Category = "Fuel"
      ↔ ((getJS rowTypeService "comment").truthy = false ∧ "Service" = "Other") :=
  c2_force_fuel_rule 2025 rowTypeService _ "Service" (by rfl) (by rfl) (by rfl)

/-- C3 counterexample: normalization is not idempotent on categories.  The
row `{comment: "Other", Price: "5"}` keeps category `"Other"` on the first
pass (its comment is truthy), but the re-encoded record has no `comment`
key, so the second pass forces the category to `"Fuel"`. -/
theorem c3_idempotence_counterexample :
    normalizeData 2025 [rowCommentOther] = Except.ok [outPass1] ∧
    normalizeData 2025 ([outPass1].map expenseToRaw) = Except.ok [outPass2] ∧
    outPass1.Category = "Other" ∧ outPass2.Category = "Fuel" :=
  ⟨by with_unfolding_all rfl, by with_unfolding_all rfl, rfl, rfl⟩

/-- C3 (amended): re-feeding a successful `normalizeData` output (re-encoded
as raw rows) succeeds and reproduces every record's `Date` and `Amount`
exactly, and its `Category` up to the second-pass rewrite `amendCat` (an
`"Other"` category flips to `"Fuel"`); the (`Date`, `Category`, `Amount`)
triples are preserved as a multiset (the second pass may reorder ties). -/
theorem c3_idempotence (cy : ℕ) (raws : List RawRecord) (out : List Expense)
    (h : normalizeData cy raws = Except.ok out) :
    ∃ out2, normalizeData cy (out.map expenseToRaw) = Except.ok out2 ∧
      (out2.map projDCA).Perm (out.map projDCAAmended) := by
  obtain ⟨base, hb, rfl⟩ := normalizeData_ok_elim cy raws out h
  have hinv : ∀ e ∈ applyEfficiency none (sortJS effLe base),
      normalizeDateStr cy (JSVal.vStr e.Date) = e.Date ∧ e.Category ≠ "" ∧
      (e.Category = "Fuel" ∨ hasSub (toLowerJS e.Category) "fuel" = false) ∧
      DecimalRat e.Amount := by
    intro e he
    obtain ⟨e0, he0, heq⟩ := applyEfficiency_mem_eraseEff none _ e he
    have he0b := (mem_sortJS_iff effLe base e0).mp he0
    obtain ⟨raw, hrw, hok⟩ := mapRawAll_mem cy _ base hb e0 he0b
    obtain ⟨i1, i2, i3, i4, -, -, -, -⟩ := mapRaw_inv cy raw e0 hok
    have hD : e0.Date = e.Date := by
      have h2 := congrArg Expense.Date heq
      rwa [eraseEff_Date, eraseEff_Date] at h2
    have hC : e0.Category = e.Category := by
      have h2 := congrArg Expense.Category heq
      rwa [eraseEff_Category, eraseEff_Category] at h2
    have hA : e0.Amount = e.Amount := by
      have h2 := congrArg Expense.Amount heq
      rwa [eraseEff_Amount, eraseEff_Amount] at h2
    rw [← hD, ← hC, ← hA]
    exact ⟨i1, i2, i3, i4⟩
  have hpt : ∀ e ∈ applyEfficiency none (sortJS effLe base), ∀ e2,
      mapRaw cy (expenseToRaw e) = Except.ok e2 → projDCA e2 = projDCAAmended e := by
    intro e he e2 hok2
    obtain ⟨i1, i2, i3, i4⟩ := hinv e he
    obtain ⟨e2x, hokx, hproj⟩ := mapRaw_expenseToRaw cy e i1 i2 i3 i4
    rw [hok2] at hokx
    injection hokx with hx
    rw [hx]
    exact hproj
  have hall : ∀ r ∈ (applyEfficiency none (sortJS effLe base)).map expenseToRaw,
      ∃ e2, mapRaw cy r = Except.ok e2 := by
    intro r hr
    obtain ⟨e, he, rfl⟩ := List.mem_map.mp hr
    obtain ⟨i1, i2, i3, i4⟩ := hinv e he
    obtain ⟨e2, hok2, -⟩ := mapRaw_expenseToRaw cy e i1 i2 i3 i4
    exact ⟨e2, hok2⟩
  have hfilt : ((applyEfficiency none (sortJS effLe base)).map expenseToRaw).filter
      (fun r => !(List.isEmpty r))
      = (applyEfficiency none (sortJS effLe base)).map expenseToRaw := by
    apply List.filter_eq_self.mpr
    intro r hr
    obtain ⟨e, -, rfl⟩ := List.mem_map.mp hr
    rfl
  obtain ⟨base2, hb2⟩ := mapRawAll_ok_of_forall cy _ hall
  refine ⟨applyEfficiency none (sortJS effLe base2),
    normalizeData_ok_intro cy _ base2 ((congrArg (mapRawAll cy) hfilt).trans hb2), ?_⟩
  have hmapeq : base2.map projDCA
      = (applyEfficiency none (sortJS effLe base)).map projDCAAmended :=
    map_proj_of_forall2 cy _ base2 ((mapRawAll_iff_forall2 cy _ _).mp hb2) hpt
  rw [projDCA_applyEfficiency none (sortJS effLe base2)]
  have h2 : ((sortJS effLe base2).map projDCA).Perm (base2.map projDCA) :=
    (sortJS_perm effLe base2).map projDCA
  rw [hmapeq] at h2
  exact h2

/-- Witness for C3's amended property, at the one-row input whose category
flips: the triples survive up to `amendCat`. -/
theorem c3_idempotence_witness :
    ∃ out2, normalizeData 2025 ([outPass1].map expenseToRaw) = Except.ok out2 ∧
      (out2.map projDCA).Perm ([outPass1].map projDCAAmended) :=
  c3_idempotence 2025 [rowCommentOther] [outPass1] (by with_unfolding_all rfl)

/-- C7 counterexample: a field-level defect IS fatal — a row whose `comment`
is the number `42` makes the resolved `typeValue` a truthy non-string, so
`typeValue.toLowerCase()` throws a `TypeError` and the whole `normalizeData`
call aborts instead of degrading to a default. -/
theorem c7_totality_counterexample :
    normalizeData 2025 [rowNumComment]
      = Except.error "TypeError: typeValue.toLowerCase is not a function" := by
  with_unfolding_all rfl

/-- C7 (amended): `normalizeData` is total on inputs whose rows all resolve
their comment/type/Category/category family to a string value (in
particular when those fields are strings or absent); every other field-level
defect — missing or unparseable date, amount, odometer, volume, rate —
degrades to its documented default and never aborts the run. -/
theorem c7_field_totality (cy : ℕ) (raws : List RawRecord)
    (h : ∀ r ∈ raws, ∃ t, resolveType r = JSVal.vStr t) :
    ∃ out, normalizeData cy raws = Except.ok out := by
  obtain ⟨base, hb⟩ := mapRawAll_ok_of_forall cy (raws.filter (fun r => !(List.isEmpty r)))
    (fun r hr => by
      obtain ⟨t, ht⟩ := h r (List.mem_of_mem_filter hr)
      exact ⟨mkExpense cy r t, mapRaw_ok_of_vStr cy r t ht⟩)
  exact ⟨_, normalizeData_ok_intro cy raws base hb⟩

/-- Witness for C7's amended totality: a string-valued comment row (with
every other field missing) normalizes successfully. -/
theorem c7_field_totality_witness :
    ∃ out, normalizeData 2025 [rowStrComment] = Except.ok out :=
  c7_field_totality 2025 [rowStrComment] (by
    intro r hr
    rw [List.mem_singleton] at hr
    subst hr
    exact ⟨"service visit", by rfl⟩)

/-- C8 counterexample: currency glyphs are NOT stripped from the amount —
`{Price: "₹100"}` coerces to `0` (the parse fails on the glyph), while the
glyph-stripped string parses to `100`.  Only the rate field strips `₹`. -/
theorem c8_coercion_counterexample :
    (∃ e, mapRaw 2025 rowRupeeAmount = Except.ok e ∧ e.Amount = 0) ∧
    parseFloatJS (stripRupee "₹100") = some 100 :=
  ⟨⟨mkExpense 2025 rowRupeeAmount "Other", by rfl, by with_unfolding_all rfl⟩,
    by with_unfolding_all rfl⟩

/-- C8 (amended): numeric coercion strips thousands separators (commas) from
amount, odometer, volume and rate, but currency glyphs (`₹`) only from rate;
`"1,234.50"` coerces to `1234.50`; a failed amount parse defaults to `0`,
while failed odometer/volume/rate parses yield absent — and a parsed `0`
odometer/volume/rate also collapses to absent, never to `some 0`. -/
theorem c8_numeric_coercion (cy : ℕ) (raw : RawRecord) (e : Expense)
    (hok : mapRaw cy raw = Except.ok e) :
    (jsString (resolveAmount raw) = "1,234.50" → e.Amount = 2469 / 2) ∧
    (parseFloatJS (stripCommas (jsString (resolveAmount raw))) = none → e.Amount = 0) ∧
    (parseFloatJS (stripCommas (jsString (resolveOdometer raw))) = none →
      e.Odometer = none) ∧
    (parseFloatJS (stripCommas (jsString (resolveVolume raw))) = none → e.Volume = none) ∧
    (parseFloatJS (stripRupee (stripCommas (jsString (resolveRate raw)))) = none →
      e.Rate = none) ∧
    e.Odometer ≠ some 0 ∧ e.Volume ≠ some 0 ∧ e.Rate ≠ some 0 := by
  obtain ⟨t, ht, rfl⟩ := mapRaw_ok_elim cy raw e hok
  refine ⟨?_, ?_, ?_, ?_, ?_, numOrUndef_ne_some_zero _, numOrUndef_ne_some_zero _,
    numOrUndef_ne_some_zero _⟩
  · intro h
    show (parseFloatJS (stripCommas (jsString (resolveAmount raw)))).getD 0 = 2469 / 2
    rw [h]
    with_unfolding_all rfl
  · intro h
    show (parseFloatJS (stripCommas (jsString (resolveAmount raw)))).getD 0 = 0
    rw [h]
    rfl
  · intro h
    show numOrUndef (parseFloatJS (stripCommas (jsString (resolveOdometer raw)))) = none
    rw [h]
    rfl
  · intro h
    show numOrUndef (parseFloatJS (stripCommas (jsString (resolveVolume raw)))) = none
    rw [h]
    rfl
  · intro h
    show numOrUndef (parseFloatJS (stripRupee (stripCommas (jsString (resolveRate raw)))))
        = none
    rw [h]
    rfl

/-- Witness for C8: the thousands-separated amount `"1,234.50"` coerces to
`1234.50`. -/
theorem c8_numeric_coercion_witness :
    (mkExpense 2025 rowCommaAmount "Other").Amount = 2469 / 2 :=
  (c8_numeric_coercion 2025 rowCommaAmount _ (by rfl)).1 (by rfl)

/-- C9 counterexample: a record with a truthy but unparseable date is NOT
treated as dated at the epoch — its `getTime()` is `NaN`, every comparison
against it is a tie, and the stable sort leaves it in place (here: first,
ahead of a dated record).  Only an empty `Date` gets the epoch key and is
placed last. -/
theorem c9_display_order_counterexample :
    displayKey dispGarbage = none ∧
    sortDisplay [dispGarbage, dispDated] = [dispGarbage, dispDated] ∧
    displayKey dispEmpty = some 0 ∧
    sortDisplay [dispEmpty, dispDated] = [dispDated, dispEmpty] :=
  ⟨by rfl, by with_unfolding_all rfl, by rfl, by with_unfolding_all rfl⟩

/-- C9 (amended): when every record's display key is defined (its date is
empty or parseable), the display sort is pairwise descending by parsed date;
the epoch rule applies to empty dates only: a record with `Date = ""` gets
the epoch key `0` (an unparseable non-empty date instead yields `NaN`, which
ties with everything and leaves the record wherever stability puts it). -/
theorem c9_display_order (es : List Expense)
    (h : ∀ e ∈ es, (displayKey e).isSome = true) :
    List.Pairwise (fun a b => displayLe a b = true) (sortDisplay es) ∧
    (∀ e : Expense, e.Date = "" → displayKey e = some 0) := by
  refine ⟨pairwise_sortJS displayLe es
    (fun a ha b hb => displayLe_total_key a b (h a ha) (h b hb))
    (fun a ha b hb c hc => displayLe_trans_key a b c (h a ha) (h b hb) (h c hc)), ?_⟩
  intro e hD
  unfold displayKey
  rw [hD]
  rfl

/-- Witness for C9's amended ordering, on one empty-dated and one dated
record: the dated record sorts first (newest first), the epoch-keyed one
last. -/
theorem c9_display_order_witness :
    List.Pairwise (fun a b => displayLe a b = true) (sortDisplay [dispEmpty, dispDated]) ∧
    (∀ e : Expense, e.Date = "" → displayKey e = some 0) :=
  c9_display_order [dispEmpty, dispDated] (by
    intro e he
    rcases List.mem_cons.mp he with rfl | he2
    · rfl
    · rw [List.mem_singleton] at he2
      subst he2
      rfl)

/-- C10 counterexample: the delivered sequence is NOT ascending by parsed
date when unparseable dates are present — their `NaN` keys tie with
everything, so the merge sort can leave a newer record ahead of an older
one.  Here the 2020 record is delivered before the 2015 record
(`effLe c10e2020 c10e2015 = false` says 2020 may not legitimately precede
2015 in ascending order). -/
theorem c10_delivery_order_counterexample :
    normalizeData 2025 c10rows = Except.ok c10out ∧
    c10out.map Expense.Date = ["15 Jan 2020", "nonsense", "garbage", "15 Jan 2015"] ∧
    effLe c10e2020 c10e2015 = false :=
  ⟨by with_unfolding_all rfl, by rfl, by rfl⟩

/-- C10 (amended): when every delivered record's date parses, the sequence
returned by `normalizeData` is delivered in efficiency-derivation order —
ascending by parsed date, ties broken by ascending odometer reading (a
missing odometer treated as `0`), oldest first. -/
theorem c10_delivery_order (cy : ℕ) (raws : List RawRecord) (out : List Expense)
    (h : normalizeData cy raws = Except.ok out)
    (hp : ∀ e ∈ out, (parseDateJS e.Date).isSome = true) :
    List.Pairwise (fun a b => effLe a b = true) out := by
  obtain ⟨base, hb, rfl⟩ := normalizeData_ok_elim cy raws out h
  have hpL : ∀ e ∈ sortJS effLe base, (parseDateJS e.Date).isSome = true := by
    intro e he
    have h1 : eraseEff e ∈ (sortJS effLe base).map eraseEff := List.mem_map_of_mem _ he
    rw [← applyEfficiency_map_eraseEff none] at h1
    obtain ⟨e2, he2, heq⟩ := List.mem_map.mp h1
    have hD : e2.Date = e.Date := by
      have h2 := congrArg Expense.Date heq
      rwa [eraseEff_Date, eraseEff_Date] at h2
    rw [← hD]
    exact hp e2 he2
  have hbase : ∀ e ∈ base, (parseDateJS e.Date).isSome = true :=
    fun e he => hpL e ((mem_sortJS_iff effLe base e).mpr he)
  exact pairwise_effLe_applyEfficiency none _
    (pairwise_sortJS effLe base
      (fun a ha b hb2 => effLe_total_parse a b (hbase a ha) (hbase b hb2))
      (fun a ha b hb2 c hc => effLe_trans_parse a b c (hbase a ha) (hbase b hb2) (hbase c hc)))

/-- Witness for C10's amended ordering: two dated rows arriving newest first
are delivered oldest first. -/
theorem c10_delivery_order_witness :
    List.Pairwise (fun a b => effLe a b = true) c10wOut :=
  c10_delivery_order 2025 c10wRows c10wOut (by with_unfolding_all rfl) (by
    intro e he
    rcases List.mem_cons.mp he with rfl | he2
    · rfl
    · rw [List.mem_singleton] at he2
      subst he2
      rfl)

end Car
